import Mathlib

/-!
Verification of the span-tree trace visualizer.

The source module defines a tree builder (buildSpanTree) that turns a flat
list of spans into a tree of nodes held in a Map keyed by spanId, and a
renderer (renderTimelineBar, renderSpanTree, renderTrace) that prints the
tree as an ASCII timeline.

Embedding choices:
- JS numbers (millisecond timestamps and durations) are modelled as ℚ.
- The mutable object graph (nodes holding a children array, mutated by
  push and by in-place sort) is modelled as a function from spanId to the
  list of child spanIds; the node data for an id is the last input span
  with that id (Map.set is last-wins).
- JS recursion (sortChildren, renderNode) can overflow the stack on cyclic
  inputs, so the recursive walks take a fuel argument; a result of none
  models a crash or divergence, and termination of the source program is
  the existence of a fuel giving some.
- Array.prototype.sort with comparator (a, b) => key a - key b is a stable
  sort by key (ES2019); a stable sort by a total preorder has a unique
  result, which the insertion sort insSortBy below computes.
- For the frame claim about mutation of caller-visible objects, a second
  embedding of the builder over an explicit heap of addressed objects is
  given at the end of the definitions (buildSpanTreeH and friends).
-/

/-- Input span record (interface SpanData). Attribute values are only ever
displayed via string interpolation, so they are modelled as their display
strings; the optional attributes object is modelled as a list of pairs
(absent and empty both render as nothing). -/
structure SpanData where
  spanId : String
  parentSpanId : Option String
  name : String
  startTime : ℚ
  duration : ℚ
  attributes : List (String × String)
deriving DecidableEq, Inhabited

/-- JS truthiness of span.parentSpanId: undefined/absent and the empty
string are falsy, every other string is truthy. -/
def truthyParent (s : SpanData) : Bool :=
  match s.parentSpanId with
  | none => false
  | some p => !(p == "")

/-- The spanIds of the input, in input order (the key set of spanMap). -/
def spanIds (spans : List SpanData) : List String := spans.map SpanData.spanId

/-- spanMap.has k: some input span has this spanId. -/
def hasId (spans : List SpanData) (k : String) : Bool :=
  spans.any (fun s => s.spanId == k)

/-- The span data stored in spanMap under key k: Map.set overwrites, so the
last input span with spanId k wins. none iff k is not a key. -/
def nodeSpan (spans : List SpanData) (k : String) : Option SpanData :=
  (spans.filter (fun s => s.spanId == k)).getLast?

/-- Node data for a key that is known to be present (the source uses the
non-null assertion spanMap.get(...)! at such places). -/
def getNode (spans : List SpanData) (k : String) : SpanData :=
  (nodeSpan spans k).getD default

/-- startTime of the node stored under key k (used by the children sort
comparator, which reads the node objects in the map). -/
def nodeStart (spans : List SpanData) (k : String) : ℚ :=
  ((nodeSpan spans k).map SpanData.startTime).getD 0

/-- Children lists right after the linking pass: the node for key k holds,
in input order, one entry per input span whose parentSpanId is truthy,
equals k, and k is a key of the map (the pushed reference is the node of
that span's spanId). -/
def children0 (spans : List SpanData) (k : String) : List String :=
  (spans.filter (fun s => truthyParent s && (s.parentSpanId == some k) && hasId spans k)).map SpanData.spanId

/-- The spans on which the linking pass executes root = node: those with a
falsy parentSpanId. The recorded root is the last of these (last-wins). -/
def parentlessSpans (spans : List SpanData) : List SpanData :=
  spans.filter (fun s => !truthyParent s)

/-- Insert x into l, in front of the first element whose key is not below
key x. -/
def insertBy {α : Type} (key : α → ℚ) (x : α) : List α → List α
  | [] => [x]
  | y :: ys => if key x ≤ key y then x :: y :: ys else y :: insertBy key x ys

/-- Stable insertion sort by a ℚ-valued key: the denotation of
Array.prototype.sort with comparator (a, b) => key a - key b. -/
def insSortBy {α : Type} (key : α → ℚ) : List α → List α
  | [] => []
  | x :: xs => insertBy key x (insSortBy key xs)

/-- sortChildren from the source: sort node.children in place by the child
node's startTime, then recurse into each (now sorted) child. fuel bounds
the recursion depth (the JS call stack); none models a stack overflow. -/
def sortChildrenF (spans : List SpanData) : ℕ → (String → List String) → String → Option (String → List String)
  | 0, _, _ => none
  | fuel+1, g, k =>
    let sorted := insSortBy (nodeStart spans) (g k)
    let g1 : String → List String := fun j => if j = k then sorted else g j
    sorted.foldlM (fun g2 c => sortChildrenF spans fuel g2 c) g1

/-- buildSpanTree from the source. Result: none is a crash (stack overflow
inside sortChildren, possible only on pathological inputs), some none is
the JS null returned for an empty input, and some (some (g, r)) is a
returned tree: r is the root's spanId and g the children lists of every
node. In the branch with a recorded root the children are sorted
recursively; in the fallback branch (no parentless span; root is the
earliest-starting span of a sorted copy of the input) sortChildren is not
invoked, so the children lists keep input order. -/
def buildSpanTree (spans : List SpanData) (fuel : ℕ) : Option (Option ((String → List String) × String)) :=
  if spans.isEmpty then some none
  else
    match (parentlessSpans spans).getLast? with
    | some r0 => (sortChildrenF spans fuel (children0 spans) r0.spanId).map (fun g => some (g, r0.spanId))
    | none =>
      match (insSortBy SpanData.startTime spans).head? with
      | some s0 => some (some (children0 spans, s0.spanId))
      | none => some none

/-- The root spanId of the tree buildSpanTree returns (projection that
forgets the children function, so that statements about concrete inputs
are decidable). -/
def buildRootId (spans : List SpanData) (fuel : ℕ) : Option (Option String) :=
  (buildSpanTree spans fuel).map (Option.map Prod.snd)

/-- The children list of node k in the tree buildSpanTree returns. -/
def buildChildrenOf (spans : List SpanData) (fuel : ℕ) (k : String) : Option (List String) :=
  match buildSpanTree spans fuel with
  | some (some (g, _)) => some (g k)
  | _ => none

/-- The children function of the tree buildSpanTree returns (empty lists
when the build crashed or returned null). -/
def gOf (spans : List SpanData) (fuel : ℕ) : String → List String :=
  fun k => (buildChildrenOf spans fuel k).getD []

/-- Math.round: round half toward positive infinity. -/
def jsRound (q : ℚ) : ℤ := ⌊q + 1/2⌋

/-- JS String.repeat for a count that is a mathematical integer (every
count in the source is nonnegative where repeat is applied). -/
def repChar (c : Char) (n : ℤ) : String := String.mk (List.replicate n.toNat c)

/-- renderTimelineBar from the source, with the same clamping. -/
def renderTimelineBar (startTime duration traceStartTime totalDuration : ℚ) (barWidth : ℕ) : String :=
  if totalDuration = 0 then repChar '█' (barWidth : ℤ)
  else
    let startOffset := max 0 (startTime - traceStartTime)
    let startFrac := min (startOffset / totalDuration) 1
    let durFrac := min (duration / totalDuration) (1 - startFrac)
    let startPos := max 0 (jsRound (startFrac * (barWidth : ℚ)))
    let barLength := max 1 (jsRound (durFrac * (barWidth : ℚ)))
    let adjustedStartPos := min startPos ((barWidth : ℤ) - 1)
    let endPos := min (barWidth : ℤ) (adjustedStartPos + barLength)
    repChar '·' adjustedStartPos ++ repChar '█' (max 1 (endPos - adjustedStartPos)) ++
      repChar '·' (max 0 ((barWidth : ℤ) - endPos))

def colorReset : String := "\x1b[0m"
def colorGreen : String := "\x1b[32m"
def colorYellow : String := "\x1b[33m"
def colorRed : String := "\x1b[31m"
def colorDim : String := "\x1b[2m"
def colorCyan : String := "\x1b[36m"
def colorBold : String := "\x1b[1m"

/-- getDurationColor from the source. When totalDuration is 0 the JS ratio
is NaN or Infinity for the nonnegative durations that occur, and both
comparisons are false, so the result is red; the zero test makes that case
explicit since division by zero has no NaN in ℚ. -/
def getDurationColor (duration totalDuration : ℚ) : String :=
  if totalDuration = 0 then colorRed
  else if duration / totalDuration < 1/10 then colorGreen
  else if duration / totalDuration < 2/5 then colorYellow
  else colorRed

/-- Number.prototype.toFixed(1) over ℚ (rounding to nearest at the last
digit; exact-float corner cases of the JS original are out of scope). -/
def toFixed1 (q : ℚ) : String :=
  let n := jsRound (q * 10)
  (if n < 0 then "-" else "") ++ toString (n.natAbs / 10) ++ "." ++ toString (n.natAbs % 10)

/-- Number.prototype.toFixed(0) over ℚ. -/
def toFixed0 (q : ℚ) : String :=
  let n := jsRound q
  (if n < 0 then "-" else "") ++ toString n.natAbs

/-- The bracketed attribute summary: first two key=value pairs, space
separated; empty (and absent) attribute sets render as nothing. -/
def attrString (attrs : List (String × String)) : String :=
  if attrs.isEmpty then ""
  else " [" ++ String.intercalate " " ((attrs.take 2).map (fun kv => kv.1 ++ "=" ++ kv.2)) ++ "]"

/-- JS String.prototype.padEnd with spaces (no-op when already long enough). -/
def padEndJs (s : String) (n : ℕ) : String := s ++ repChar ' ' ((n : ℤ) - (s.length : ℤ))

/-- JS String.prototype.slice(0, n) for nonnegative n. -/
def sliceTo (s : String) (n : ℕ) : String := String.mk (s.data.take n)

/-- children.forEach((child, index) => f child (index == length - 1)),
collecting the lines every call pushes; fails when any call fails. -/
def forEachWithLast {α : Type} (f : α → Bool → Option (List String)) : List α → Option (List String)
  | [] => some []
  | c :: cs => do
    let ls ← f c cs.isEmpty
    let rest ← forEachWithLast f cs
    pure (ls ++ rest)

/-- renderNode from the source (the inner closure of renderSpanTree, which
fixes timelineWidth = 50 and nameColWidth = 45). Returns the lines pushed
by this call and its recursive calls; fuel bounds the recursion depth. -/
def renderNodeF (spans : List SpanData) (g : String → List String) (totalDuration traceStartTime : ℚ) :
    ℕ → String → String → Bool → Bool → Option (List String)
  | 0, _, _, _, _ => none
  | fuel+1, k, pfx, isLast, isRoot =>
    let node := getNode spans k
    let connector : String := if isRoot then "" else if isLast then "└─ " else "├─ "
    let durationMs := toFixed1 node.duration
    let color := getDurationColor node.duration totalDuration
    let timelineBar := renderTimelineBar node.startTime node.duration traceStartTime totalDuration 50
    let attrStr := attrString node.attributes
    let nameWithDuration := pfx ++ connector ++ node.name ++ attrStr ++ " (" ++ durationMs ++ "ms)"
    let displayName := if nameWithDuration.length > 45
      then sliceTo nameWithDuration 44 ++ "…"
      else padEndJs nameWithDuration 45
    let line := color ++ displayName ++ colorReset ++ colorDim ++ "│" ++ colorReset ++
      color ++ timelineBar ++ colorReset ++ colorDim ++ "│" ++ colorReset
    let childPfx := if isRoot then "" else pfx ++ (if isLast then "   " else "│  ")
    (forEachWithLast (fun c last => renderNodeF spans g totalDuration traceStartTime fuel c childPfx last false) (g k)).map
      (fun ls => line :: ls)

/-- renderSpanTree from the source: header line with time markers followed
by the renderNode lines, joined with newlines. -/
def renderSpanTreeF (spans : List SpanData) (g : String → List String) (rootId : String)
    (totalDuration traceStartTime : ℚ) (fuel : ℕ) : Option String :=
  let pad := repChar ' ' 45
  let timeMarkers := pad ++ colorDim ++ "0ms" ++ repChar ' ' (50 - 7) ++ toFixed0 totalDuration ++ "ms" ++ colorReset
  (renderNodeF spans g totalDuration traceStartTime fuel rootId "" true true).map
    (fun ls => String.intercalate "\n" (timeMarkers :: ls))

/-- renderTrace from the source. The returned list holds, in order, the
strings the function passes to console.log; some [] is the early return on
a null tree (no output at all), none models a crash before any return. -/
def renderTraceF (traceId : String) (spans : List SpanData) (fuel : ℕ) : Option (List String) :=
  match buildSpanTree spans fuel with
  | none => none
  | some none => some []
  | some (some (g, rootId)) =>
    let totalDuration := (getNode spans rootId).duration
    let traceStartTime := (getNode spans rootId).startTime
    let shortTraceId := String.mk (traceId.data.take 8)
    match renderSpanTreeF spans g rootId totalDuration traceStartTime fuel with
    | none => none
    | some block =>
      some ["",
        colorBold ++ colorCyan ++ "Trace " ++ shortTraceId ++ colorReset ++ " " ++ colorDim ++
          "(" ++ toFixed1 totalDuration ++ "ms total, " ++ toString spans.length ++ " spans)" ++ colorReset,
        block, ""]

/-- Paths of exactly n child edges in a children graph. -/
def ReachN (g : String → List String) : ℕ → String → String → Prop
  | 0, a, b => b = a
  | n+1, a, b => ∃ c ∈ g a, ReachN g n c b

/-- b is in the subtree descended from a (a itself included). -/
def Reaches (g : String → List String) (a b : String) : Prop := ∃ n, ReachN g n a b

/-- The children list l is nondecreasing in the stored nodes' startTime. -/
def SortedByStart (spans : List SpanData) (l : List String) : Prop :=
  l.Pairwise (fun a b => nodeStart spans a ≤ nodeStart spans b)

/-- The set of spanIds of the input. -/
def idSet (spans : List SpanData) : Finset String := (spans.map SpanData.spanId).toFinset

/-!
Heap embedding of the builder, for the frame property: JS objects live in
an addressed heap, the span records and the spans array are caller-owned
cells, and the builder allocates fresh node objects ({...span} copies) and
mutates only those. Addresses are indices into the cell list; allocation
appends.
-/

/-- A heap object: an input span record, a tree node (span fields copied
from a span, plus an array of child node addresses), or an array of
addresses (such as the input spans array). -/
inductive HVal where
  | spanObj (s : SpanData)
  | nodeObj (s : SpanData) (children : List ℕ)
  | arrObj (elems : List ℕ)
deriving DecidableEq

/-- The JS heap: object cells indexed by address. -/
structure Heap where
  cells : List HVal
deriving DecidableEq

def Heap.get (h : Heap) (a : ℕ) : Option HVal := h.cells[a]?

def Heap.set (h : Heap) (a : ℕ) (v : HVal) : Heap := ⟨h.cells.set a v⟩

def Heap.alloc (h : Heap) (v : HVal) : Heap × ℕ := (⟨h.cells ++ [v]⟩, h.cells.length)

/-- Read the span fields of the object at address a (span records and node
objects both carry them). -/
def readSpanH (h : Heap) (a : ℕ) : SpanData :=
  match h.get a with
  | some (.spanObj s) => s
  | some (.nodeObj s _) => s
  | _ => default

/-- Read the children array of the node object at address a. -/
def readChildrenH (h : Heap) (a : ℕ) : List ℕ :=
  match h.get a with
  | some (.nodeObj _ cs) => cs
  | _ => []

/-- Read the element addresses of the array object at address a. -/
def readArrH (h : Heap) (a : ℕ) : List ℕ :=
  match h.get a with
  | some (.arrObj es) => es
  | _ => []

/-- Map.set on the association list modelling spanMap (overwrite in place,
append when the key is new). -/
def mapSet (m : List (String × ℕ)) (k : String) (v : ℕ) : List (String × ℕ) :=
  match m with
  | [] => [(k, v)]
  | kv :: rest => if kv.1 = k then (k, v) :: rest else kv :: mapSet rest k v

/-- Map.get on the association list modelling spanMap. -/
def mapGet (m : List (String × ℕ)) (k : String) : Option ℕ :=
  (m.find? (fun kv => kv.1 == k)).map Prod.snd

/-- One iteration of the first pass of buildSpanTree: allocate a fresh
node object copying the span fields ({...span, children: []}) and record
its address in spanMap. -/
def createNodeStep (hm : Heap × List (String × ℕ)) (r : ℕ) : Heap × List (String × ℕ) :=
  let s := readSpanH hm.1 r
  let ha := Heap.alloc hm.1 (HVal.nodeObj s [])
  (ha.1, mapSet hm.2 s.spanId ha.2)

/-- First pass of buildSpanTree over all spans. -/
def createNodesH (h : Heap) (refs : List ℕ) : Heap × List (String × ℕ) :=
  refs.foldl createNodeStep (h, [])

/-- One iteration of the second pass of buildSpanTree: link the span's
node to its parent by appending to the parent node's children array
(parent.children.push(node)), or record it as root when its parentSpanId
is falsy. The none branch for the span's own map entry is unreachable
(the first pass put every spanId in the map) and writes nothing. -/
def linkChildStep (m : List (String × ℕ)) (hr : Heap × Option ℕ) (r : ℕ) : Heap × Option ℕ :=
  let s := readSpanH hr.1 r
  match mapGet m s.spanId with
  | none => hr
  | some nodeAddr =>
    if truthyParent s then
      match s.parentSpanId with
      | some p =>
        match mapGet m p with
        | some pa => (Heap.set hr.1 pa (HVal.nodeObj (readSpanH hr.1 pa) (readChildrenH hr.1 pa ++ [nodeAddr])), hr.2)
        | none => hr
      | none => hr
    else (hr.1, some nodeAddr)

/-- Second pass of buildSpanTree over all spans. -/
def linkChildrenH (h : Heap) (refs : List ℕ) (m : List (String × ℕ)) : Heap × Option ℕ :=
  refs.foldl (linkChildStep m) (h, none)

/-- sortChildren over the heap: write back the children array sorted by
the child nodes' startTime, then recurse into the sorted children. The
Bool is false when the fuel (the JS call stack) ran out. -/
def sortChildrenH : ℕ → Heap → ℕ → Heap × Bool
  | 0, h, _ => (h, false)
  | fuel+1, h, a =>
    let sorted := insSortBy (fun c => (readSpanH h c).startTime) (readChildrenH h a)
    let h1 := Heap.set h a (HVal.nodeObj (readSpanH h a) sorted)
    sorted.foldl (fun hb c => if hb.2 then sortChildrenH fuel hb.1 c else hb) (h1, true)

/-- buildSpanTree over the heap. arrRef is the address of the caller's
spans array, whose elements are the addresses of the caller's span
records. In the fallback branch the sorted copy [...spans].sort(...) is a
fresh array, modelled as a pure list, and the input array is not written. -/
def buildSpanTreeH (h : Heap) (arrRef : ℕ) (fuel : ℕ) : Heap × Option (Option ℕ) :=
  let refs := readArrH h arrRef
  if refs.isEmpty then (h, some none)
  else
    let hm := createNodesH h refs
    let hr := linkChildrenH hm.1 refs hm.2
    match hr.2 with
    | some ra =>
      let hb := sortChildrenH fuel hr.1 ra
      (hb.1, if hb.2 then some (some ra) else none)
    | none =>
      let sortedRefs := insSortBy (fun r => (readSpanH hr.1 r).startTime) refs
      match sortedRefs.head? with
      | some r0 => (hr.1, some (some ((mapGet hm.2 ((readSpanH hr.1 r0).spanId)).getD 0)))
      | none => (hr.1, some none)

/-- renderNode over the heap: pure reads, no writes. -/
def renderNodeH (h : Heap) (totalDuration traceStartTime : ℚ) : ℕ → ℕ → String → Bool → Bool → Option (List String)
  | 0, _, _, _, _ => none
  | fuel+1, a, pfx, isLast, isRoot =>
    let node := readSpanH h a
    let connector : String := if isRoot then "" else if isLast then "└─ " else "├─ "
    let durationMs := toFixed1 node.duration
    let color := getDurationColor node.duration totalDuration
    let timelineBar := renderTimelineBar node.startTime node.duration traceStartTime totalDuration 50
    let attrStr := attrString node.attributes
    let nameWithDuration := pfx ++ connector ++ node.name ++ attrStr ++ " (" ++ durationMs ++ "ms)"
    let displayName := if nameWithDuration.length > 45
      then sliceTo nameWithDuration 44 ++ "…"
      else padEndJs nameWithDuration 45
    let line := color ++ displayName ++ colorReset ++ colorDim ++ "│" ++ colorReset ++
      color ++ timelineBar ++ colorReset ++ colorDim ++ "│" ++ colorReset
    let childPfx := if isRoot then "" else pfx ++ (if isLast then "   " else "│  ")
    (forEachWithLast (fun c last => renderNodeH h totalDuration traceStartTime fuel c childPfx last false) (readChildrenH h a)).map
      (fun ls => line :: ls)

/-- renderTrace over the heap: runs the heap builder, then renders from
the resulting heap without writing to it; the returned heap is exactly
the builder's. -/
def renderTraceH (traceId : String) (h : Heap) (arrRef : ℕ) (fuel : ℕ) : Heap × Option (List String) :=
  let hb := buildSpanTreeH h arrRef fuel
  match hb.2 with
  | none => (hb.1, none)
  | some none => (hb.1, some [])
  | some (some ra) =>
    let totalDuration := (readSpanH hb.1 ra).duration
    let traceStartTime := (readSpanH hb.1 ra).startTime
    let shortTraceId := String.mk (traceId.data.take 8)
    let pad := repChar ' ' 45
    let timeMarkers := pad ++ colorDim ++ "0ms" ++ repChar ' ' (50 - 7) ++ toFixed0 totalDuration ++ "ms" ++ colorReset
    match renderNodeH hb.1 totalDuration traceStartTime fuel ra "" true true with
    | none => (hb.1, none)
    | some ls =>
      (hb.1, some ["",
        colorBold ++ colorCyan ++ "Trace " ++ shortTraceId ++ colorReset ++ " " ++ colorDim ++
          "(" ++ toFixed1 totalDuration ++ "ms total, " ++ toString (readArrH h arrRef).length ++ " spans)" ++ colorReset,
        String.intercalate "\n" (timeMarkers :: ls), ""])

/-!
Concrete inputs used by the witnesses and counterexamples below.
-/

/-- One parentless root with two valid children given out of start order. -/
def exRoot : List SpanData :=
  [⟨"A", none, "root", 0, 100, []⟩, ⟨"B", some "A", "b", 50, 10, []⟩, ⟨"C", some "A", "c", 10, 20, []⟩]

/-- Two parentless spans; the later one in input order starts earlier. -/
def exTwoRoots : List SpanData :=
  [⟨"Y", none, "y", 1, 1, []⟩, ⟨"X", none, "x", 5, 1, []⟩]

/-- Every span declares a parent; A's parent is dangling; B is the
earliest starter and first of the start-time tie B/C. -/
def exAllParented : List SpanData :=
  [⟨"A", some "Z", "a", 3, 1, []⟩, ⟨"B", some "A", "b", 1, 1, []⟩, ⟨"C", some "A", "c", 1, 1, []⟩]

/-- No parentless span; fallback root F has children pushed in input
order B (start 5) then C (start 1), which no sorting pass ever visits. -/
def exFallback : List SpanData :=
  [⟨"F", some "Z", "f", 0, 10, []⟩, ⟨"B", some "F", "b", 5, 1, []⟩, ⟨"C", some "F", "c", 1, 1, []⟩]

/-- A single span whose parent reference is dangling. -/
def exOrphan : List SpanData := [⟨"A", some "Z", "a", 0, 1, []⟩]

/-- Two spans that are each other's parents; no parentless span. -/
def exCycle : List SpanData :=
  [⟨"A", some "B", "a", 0, 1, []⟩, ⟨"B", some "A", "b", 1, 1, []⟩]

/-- Duplicate spanId: a parentless span and a self-parenting span share
the id A, so the node for A becomes its own child and a root is recorded. -/
def exDupSelf : List SpanData :=
  [⟨"A", none, "a", 0, 1, []⟩, ⟨"A", some "A", "a2", 1, 1, []⟩]

/-- A parentless root with one valid child (an acyclic child graph). -/
def exPair : List SpanData :=
  [⟨"A", none, "a", 0, 1, []⟩, ⟨"B", some "A", "b", 1, 1, []⟩]

/-- A heap holding a two-element spans array and its two span records. -/
def exHeap : Heap :=
  ⟨[HVal.arrObj [1, 2], HVal.spanObj ⟨"A", none, "a", 0, 1, []⟩, HVal.spanObj ⟨"B", some "A", "b", 1, 1, []⟩]⟩

/-- Frame relation: h extends h0 without touching any cell h0 already
had (new cells may have been appended; nothing pre-existing changed). -/
def heapExtends (h0 h : Heap) : Prop :=
  h0.cells.length ≤ h.cells.length ∧ ∀ a, a < h0.cells.length → h.get a = h0.get a

/-- All node objects in the fresh region (at or above n0) keep their
children addresses in the fresh region. -/
def nodeChildrenHigh (n0 : ℕ) (h : Heap) : Prop :=
  ∀ a, n0 ≤ a → ∀ s cs, h.get a = some (HVal.nodeObj s cs) → ∀ c ∈ cs, n0 ≤ c

/-- buildSpanTree crashes (stack overflow) at every stack budget. -/
def buildCrashes (spans : List SpanData) : Prop := ∀ fuel, buildSpanTree spans fuel = none

/-- renderTrace crashes (stack overflow) at every stack budget. -/
def renderTraceCrashes (spans : List SpanData) : Prop := ∀ fuel, renderTraceF "trace" spans fuel = none

/-!
Helper lemmas about the stable sort.
-/

theorem insertBy_perm {α : Type} (key : α → ℚ) (x : α) (l : List α) :
    (insertBy key x l).Perm (x :: l) := by
  induction l with
  | nil => simp [insertBy]
  | cons y ys ih =>
    by_cases h : key x ≤ key y
    · simp [insertBy, h]
    · simp only [insertBy, if_neg h]
      exact (ih.cons y).trans (List.Perm.swap x y ys)

theorem insSortBy_perm {α : Type} (key : α → ℚ) (l : List α) :
    (insSortBy key l).Perm l := by
  induction l with
  | nil => simp [insSortBy]
  | cons x xs ih => exact (insertBy_perm key x (insSortBy key xs)).trans (ih.cons x)

theorem mem_insSortBy {α : Type} (key : α → ℚ) (l : List α) (a : α) :
    a ∈ insSortBy key l ↔ a ∈ l := (insSortBy_perm key l).mem_iff

theorem insertBy_pairwise {α : Type} (key : α → ℚ) (x : α) (l : List α)
    (h : l.Pairwise (fun a b => key a ≤ key b)) :
    (insertBy key x l).Pairwise (fun a b => key a ≤ key b) := by
  induction l with
  | nil => simp [insertBy]
  | cons y ys ih =>
    rcases List.pairwise_cons.mp h with ⟨hy, hys⟩
    by_cases hxy : key x ≤ key y
    · simp only [insertBy, if_pos hxy]
      refine List.pairwise_cons.mpr ⟨?_, h⟩
      intro z hz
      rcases List.mem_cons.mp hz with rfl | hz2
      · exact hxy
      · exact hxy.trans (hy z hz2)
    · simp only [insertBy, if_neg hxy]
      refine List.pairwise_cons.mpr ⟨?_, ih hys⟩
      intro z hz
      have hz2 : z ∈ x :: ys := (insertBy_perm key x ys).mem_iff.mp hz
      rcases List.mem_cons.mp hz2 with rfl | hz3
      · exact le_of_not_le hxy
      · exact hy z hz3

theorem insSortBy_pairwise {α : Type} (key : α → ℚ) (l : List α) :
    (insSortBy key l).Pairwise (fun a b => key a ≤ key b) := by
  induction l with
  | nil => simp [insSortBy]
  | cons x xs ih => exact insertBy_pairwise key x _ ih

theorem insSortBy_head?_min {α : Type} (key : α → ℚ) (l : List α) (s : α)
    (h : (insSortBy key l).head? = some s) : ∀ t ∈ l, key s ≤ key t := by
  intro t ht
  have hperm := insSortBy_perm key l
  have hpw := insSortBy_pairwise key l
  cases hl : insSortBy key l with
  | nil => rw [hl] at h; simp at h
  | cons a rest =>
    rw [hl] at h
    simp only [List.head?_cons, Option.some.injEq] at h
    subst h
    rw [hl] at hperm hpw
    have hpc := List.pairwise_cons.mp hpw
    have ht2 : t ∈ a :: rest := hperm.mem_iff.mpr ht
    rcases List.mem_cons.mp ht2 with rfl | ht3
    · exact le_refl _
    · exact hpc.1 t ht3

theorem insSortBy_head?_find? {α : Type} (key : α → ℚ) (l : List α) (s : α)
    (h : (insSortBy key l).head? = some s) :
    l.find? (fun t => decide (key t ≤ key s)) = some s := by
  induction l generalizing s with
  | nil => simp [insSortBy] at h
  | cons x xs ih =>
    simp only [insSortBy] at h
    cases hxs : insSortBy key xs with
    | nil =>
      rw [hxs] at h
      simp only [insertBy, List.head?_cons, Option.some.injEq] at h
      subst h
      simp [List.find?]
    | cons m rest =>
      rw [hxs] at h
      by_cases hxm : key x ≤ key m
      · simp only [insertBy, if_pos hxm, List.head?_cons, Option.some.injEq] at h
        subst h
        simp [List.find?]
      · simp only [insertBy, if_neg hxm, List.head?_cons, Option.some.injEq] at h
        subst h
        have hx : ¬((fun t => decide (key t ≤ key m)) x = true) := by
          simp only [decide_eq_true_eq]
          exact hxm
        have hstep : List.find? (fun t => decide (key t ≤ key m)) (x :: xs) =
            List.find? (fun t => decide (key t ≤ key m)) xs := List.find?_cons_of_neg xs hx
        rw [hstep]
        exact ih m (by rw [hxs]; rfl)

/-!
Helper lemmas about reachability in a children graph.
-/

theorem reachN_zero {g : String → List String} {a b : String} : ReachN g 0 a b ↔ b = a :=
  Iff.rfl

theorem reachN_succ {g : String → List String} {n : ℕ} {a b : String} :
    ReachN g (n + 1) a b ↔ ∃ c ∈ g a, ReachN g n c b := Iff.rfl

theorem reachN_trans {g : String → List String} :
    ∀ {n m : ℕ} {a b c : String}, ReachN g n a b → ReachN g m b c → ReachN g (n + m) a c := by
  intro n
  induction n with
  | zero =>
    intro m a b c h1 h2
    have hb : b = a := reachN_zero.mp h1
    subst hb
    simpa [Nat.zero_add] using h2
  | succ n ih =>
    intro m a b c h1 h2
    obtain ⟨d, hd, hr⟩ := reachN_succ.mp h1
    have he : n + 1 + m = (n + m) + 1 := by omega
    rw [he]
    exact reachN_succ.mpr ⟨d, hd, ih hr h2⟩

theorem reaches_refl (g : String → List String) (a : String) : Reaches g a a := ⟨0, rfl⟩

theorem reaches_trans {g : String → List String} {a b c : String}
    (h1 : Reaches g a b) (h2 : Reaches g b c) : Reaches g a c := by
  obtain ⟨n, hn⟩ := h1
  obtain ⟨m, hm⟩ := h2
  exact ⟨n + m, reachN_trans hn hm⟩

theorem reaches_step {g : String → List String} {a b c : String}
    (h : c ∈ g a) (h2 : Reaches g c b) : Reaches g a b := by
  obtain ⟨n, hn⟩ := h2
  exact ⟨n + 1, reachN_succ.mpr ⟨c, h, hn⟩⟩

theorem reaches_edge {g : String → List String} {a c : String} (h : c ∈ g a) : Reaches g a c :=
  ⟨1, reachN_succ.mpr ⟨c, h, rfl⟩⟩

theorem reaches_snoc {g : String → List String} {a b c : String}
    (h : Reaches g a b) (hc : c ∈ g b) : Reaches g a c :=
  reaches_trans h (reaches_edge hc)

theorem reachN_last {g : String → List String} :
    ∀ {n : ℕ} {a b : String}, ReachN g (n + 1) a b → ∃ e, ReachN g n a e ∧ b ∈ g e := by
  intro n
  induction n with
  | zero =>
    intro a b h
    obtain ⟨c, hc, h0⟩ := reachN_succ.mp h
    have hb : b = c := reachN_zero.mp h0
    subst hb
    exact ⟨a, rfl, hc⟩
  | succ n ih =>
    intro a b h
    obtain ⟨c, hc, hr⟩ := reachN_succ.mp h
    obtain ⟨e, he, hb⟩ := ih hr
    exact ⟨e, reachN_succ.mpr ⟨c, hc, he⟩, hb⟩

theorem reaches_last {g : String → List String} {a b : String} (h : Reaches g a b) :
    a = b ∨ ∃ e, Reaches g a e ∧ b ∈ g e := by
  obtain ⟨n, hn⟩ := h
  cases n with
  | zero => exact Or.inl (reachN_zero.mp hn).symm
  | succ n =>
    obtain ⟨e, he, hb⟩ := reachN_last hn
    exact Or.inr ⟨e, ⟨n, he⟩, hb⟩

theorem reaches_no_inedge {g : String → List String} {a b : String}
    (hb : ∀ k, b ∉ g k) (h : Reaches g a b) : a = b := by
  rcases reaches_last h with h1 | ⟨e, _, hbe⟩
  · exact h1
  · exact absurd hbe (hb e)

theorem reachN_congr {g g2 : String → List String}
    (hmem : ∀ j x, x ∈ g j ↔ x ∈ g2 j) :
    ∀ {n : ℕ} {a b : String}, ReachN g n a b → ReachN g2 n a b := by
  intro n
  induction n with
  | zero => intro a b h; exact h
  | succ n ih =>
    intro a b h
    obtain ⟨c, hc, hr⟩ := reachN_succ.mp h
    exact reachN_succ.mpr ⟨c, (hmem a c).mp hc, ih hr⟩

theorem reaches_congr {g g2 : String → List String}
    (hmem : ∀ j x, x ∈ g j ↔ x ∈ g2 j) {a b : String} :
    Reaches g a b ↔ Reaches g2 a b := by
  constructor
  · rintro ⟨n, hn⟩
    exact ⟨n, reachN_congr hmem hn⟩
  · rintro ⟨n, hn⟩
    exact ⟨n, reachN_congr (fun j x => (hmem j x).symm) hn⟩

/-!
Helper lemmas: the children graph produced by the linking pass, and
consequences of unique spanIds.
-/

theorem mem_children0 {spans : List SpanData} {k c : String} :
    c ∈ children0 spans k ↔
      ∃ s ∈ spans, s.spanId = c ∧ truthyParent s = true ∧ s.parentSpanId = some k ∧
        hasId spans k = true := by
  simp only [children0, List.mem_map, List.mem_filter, Bool.and_eq_true, beq_iff_eq]
  constructor
  · rintro ⟨s, ⟨hs, ⟨⟨ht, hp⟩, hh⟩⟩, rfl⟩
    exact ⟨s, hs, rfl, ht, hp, hh⟩
  · rintro ⟨s, hs, rfl, ht, hp, hh⟩
    exact ⟨s, ⟨hs, ⟨⟨ht, hp⟩, hh⟩⟩, rfl⟩

theorem children0_subset_ids {spans : List SpanData} {k c : String}
    (h : c ∈ children0 spans k) : c ∈ spans.map SpanData.spanId := by
  obtain ⟨s, hs, rfl, _, _, _⟩ := mem_children0.mp h
  exact List.mem_map_of_mem _ hs

theorem uniq_span_eq {spans : List SpanData} (hU : (spans.map SpanData.spanId).Nodup)
    {s t : SpanData} (hs : s ∈ spans) (ht : t ∈ spans) (h : s.spanId = t.spanId) : s = t :=
  List.inj_on_of_nodup_map hU hs ht h

theorem uniq_inedge {spans : List SpanData} (hU : (spans.map SpanData.spanId).Nodup)
    {c k k2 : String} (h1 : c ∈ children0 spans k) (h2 : c ∈ children0 spans k2) : k = k2 := by
  obtain ⟨s, hs, hsc, _, hp, _⟩ := mem_children0.mp h1
  obtain ⟨t, ht, htc, _, hp2, _⟩ := mem_children0.mp h2
  have hst : s = t := uniq_span_eq hU hs ht (by rw [hsc, htc])
  subst hst
  rw [hp] at hp2
  exact Option.some.inj hp2

theorem uniq_no_inedge {spans : List SpanData} (hU : (spans.map SpanData.spanId).Nodup)
    {r0 : SpanData} (hr : r0 ∈ spans) (hnt : truthyParent r0 = false) :
    ∀ k, r0.spanId ∉ children0 spans k := by
  intro k hmem
  obtain ⟨s, hs, hsc, hts, _, _⟩ := mem_children0.mp hmem
  have hsr : s = r0 := uniq_span_eq hU hs hr hsc
  subst hsr
  simp [hnt] at hts

/-- With unique spanIds, no node reachable from the node of a span with a
falsy parentSpanId lies on a cycle of child edges. -/
theorem uniq_nrc {spans : List SpanData} (hU : (spans.map SpanData.spanId).Nodup)
    {r0 : SpanData} (hr : r0 ∈ spans) (hnt : truthyParent r0 = false) :
    ∀ k, Reaches (children0 spans) r0.spanId k →
      ∀ c ∈ children0 spans k, ¬ Reaches (children0 spans) c k := by
  have main : ∀ m k, ReachN (children0 spans) m r0.spanId k →
      ∀ c ∈ children0 spans k, ¬ Reaches (children0 spans) c k := by
    intro m
    induction m with
    | zero =>
      intro k hk c hc hreach
      have hk2 : k = r0.spanId := reachN_zero.mp hk
      subst hk2
      have hck : c = r0.spanId := reaches_no_inedge (uniq_no_inedge hU hr hnt) hreach
      subst hck
      exact uniq_no_inedge hU hr hnt _ hc
    | succ m ih =>
      intro k hk c hc hreach
      obtain ⟨e, he, hke⟩ := reachN_last hk
      by_cases hck : c = k
      · rw [hck] at hc
        have hek : e = k := uniq_inedge hU hke hc
        rw [hek] at he
        exact ih k he k hc (reaches_refl _ k)
      · rcases reaches_last hreach with heq | ⟨e2, hce2, hke2⟩
        · exact hck heq
        · have he2e : e2 = e := uniq_inedge hU hke2 hke
          rw [he2e] at hce2
          have hkc : Reaches (children0 spans) k c := reaches_edge hc
          have hke3 : Reaches (children0 spans) k e := reaches_trans hkc hce2
          exact ih e he k hke hke3
  intro k hk
  obtain ⟨m, hm⟩ := hk
  exact main m k hm

/-!
Helper lemmas about sortChildren: what it does to the children lists
(pointwise a permutation that is sorted where it rewrote, identity
elsewhere), that it sorts every node reachable from its start, and a
sufficient stack budget for it to finish.
-/

theorem reaches_head {g : String → List String} {a b : String} (h : Reaches g a b) :
    a = b ∨ ∃ c ∈ g a, Reaches g c b := by
  obtain ⟨n, hn⟩ := h
  cases n with
  | zero => exact Or.inl (reachN_zero.mp hn).symm
  | succ n =>
    obtain ⟨c, hc, hr⟩ := reachN_succ.mp hn
    exact Or.inr ⟨c, hc, n, hr⟩

theorem pointwise_step_trans {spans : List SpanData} {a b c : List String}
    (h1 : b = a ∨ (b.Perm a ∧ SortedByStart spans b))
    (h2 : c = b ∨ (c.Perm b ∧ SortedByStart spans c)) :
    c = a ∨ (c.Perm a ∧ SortedByStart spans c) := by
  rcases h2 with rfl | ⟨hp2, hs2⟩
  · exact h1
  · rcases h1 with rfl | ⟨hp1, _⟩
    · exact Or.inr ⟨hp2, hs2⟩
    · exact Or.inr ⟨hp2.trans hp1, hs2⟩

theorem pointwise_sorted {spans : List SpanData} {a b : List String}
    (h : b = a ∨ (b.Perm a ∧ SortedByStart spans b)) (ha : SortedByStart spans a) :
    SortedByStart spans b := by
  rcases h with rfl | ⟨_, hs⟩
  · exact ha
  · exact hs

theorem pointwise_mem {spans : List SpanData} {a b : List String}
    (h : b = a ∨ (b.Perm a ∧ SortedByStart spans b)) {x : String} : x ∈ b ↔ x ∈ a := by
  rcases h with rfl | ⟨hp, _⟩
  · exact Iff.rfl
  · exact hp.mem_iff

theorem sortChildrenF_pointwise {spans : List SpanData} :
    ∀ {n : ℕ} {g g2 : String → List String} {k : String},
      sortChildrenF spans n g k = some g2 →
      ∀ j, g2 j = g j ∨ ((g2 j).Perm (g j) ∧ SortedByStart spans (g2 j)) := by
  intro n
  induction n with
  | zero => intro g g2 k h; exact absurd h (by simp [sortChildrenF])
  | succ n ih =>
    intro g g2 k h j
    simp only [sortChildrenF] at h
    -- the fold starts from the graph with the children of k sorted
    have hbase : ∀ jj, (fun j2 => if j2 = k then insSortBy (nodeStart spans) (g k) else g j2) jj = g jj ∨
        (((fun j2 => if j2 = k then insSortBy (nodeStart spans) (g k) else g j2) jj).Perm (g jj) ∧
          SortedByStart spans ((fun j2 => if j2 = k then insSortBy (nodeStart spans) (g k) else g j2) jj)) := by
      intro jj
      by_cases hjj : jj = k
      · subst hjj
        simp only [if_pos rfl]
        exact Or.inr ⟨insSortBy_perm _ _, insSortBy_pairwise _ _⟩
      · refine Or.inl ?_
        simp only [if_neg hjj]
    -- generic fact about the fold
    have hfold : ∀ (cs : List String) (ga gb : String → List String),
        cs.foldlM (fun g2 c => sortChildrenF spans n g2 c) ga = some gb →
        ∀ jj, gb jj = ga jj ∨ ((gb jj).Perm (ga jj) ∧ SortedByStart spans (gb jj)) := by
      intro cs
      induction cs with
      | nil =>
        intro ga gb hf jj
        simp only [List.foldlM_nil, pure, Option.some.injEq] at hf
        subst hf
        exact Or.inl rfl
      | cons c cs ihc =>
        intro ga gb hf jj
        rw [List.foldlM_cons] at hf
        cases hstep : sortChildrenF spans n ga c with
        | none => rw [hstep] at hf; simp at hf
        | some gmid =>
          rw [hstep] at hf
          simp only [Option.bind_eq_bind, Option.some_bind] at hf
          exact pointwise_step_trans (ih hstep jj) (ihc gmid gb hf jj)
    exact pointwise_step_trans (hbase j) (hfold _ _ _ h j)

theorem sortChildrenF_mem {spans : List SpanData} {n : ℕ} {g g2 : String → List String} {k : String}
    (h : sortChildrenF spans n g k = some g2) : ∀ j x, x ∈ g2 j ↔ x ∈ g j := by
  intro j x
  exact pointwise_mem (sortChildrenF_pointwise h j)

theorem sortChildrenF_fold_pointwise {spans : List SpanData} {n : ℕ} :
    ∀ (cs : List String) (ga gb : String → List String),
      cs.foldlM (fun g2 c => sortChildrenF spans n g2 c) ga = some gb →
      ∀ jj, gb jj = ga jj ∨ ((gb jj).Perm (ga jj) ∧ SortedByStart spans (gb jj)) := by
  intro cs
  induction cs with
  | nil =>
    intro ga gb hf jj
    simp only [List.foldlM_nil, pure, Option.some.injEq] at hf
    subst hf
    exact Or.inl rfl
  | cons c cs ihc =>
    intro ga gb hf jj
    rw [List.foldlM_cons] at hf
    cases hstep : sortChildrenF spans n ga c with
    | none => rw [hstep] at hf; simp at hf
    | some gmid =>
      rw [hstep] at hf
      simp only [Option.bind_eq_bind, Option.some_bind] at hf
      exact pointwise_step_trans (sortChildrenF_pointwise hstep jj) (ihc gmid gb hf jj)

theorem sortChildrenF_fold_sorted_reach {spans : List SpanData} {n : ℕ}
    (IH : ∀ {g g2 : String → List String} {k : String}, sortChildrenF spans n g k = some g2 →
      ∀ j, Reaches g2 k j → SortedByStart spans (g2 j)) :
    ∀ (cs : List String) (ga gb : String → List String),
      cs.foldlM (fun g2 c => sortChildrenF spans n g2 c) ga = some gb →
      ∀ c ∈ cs, ∀ j, Reaches gb c j → SortedByStart spans (gb j) := by
  intro cs
  induction cs with
  | nil => intro ga gb hf c hc; exact absurd hc (List.not_mem_nil c)
  | cons c0 cs ihc =>
    intro ga gb hf c hc j hreach
    rw [List.foldlM_cons] at hf
    cases hstep : sortChildrenF spans n ga c0 with
    | none => rw [hstep] at hf; simp at hf
    | some gmid =>
      rw [hstep] at hf
      simp only [Option.bind_eq_bind, Option.some_bind] at hf
      rcases List.mem_cons.mp hc with rfl | hc2
      · have hpw := sortChildrenF_fold_pointwise cs gmid gb hf
        have hmem : ∀ jj x, x ∈ gb jj ↔ x ∈ gmid jj := fun jj x => pointwise_mem (hpw jj)
        have hreach2 : Reaches gmid c j := (reaches_congr hmem).mp hreach
        exact pointwise_sorted (hpw j) (IH hstep j hreach2)
      · exact ihc gmid gb hf c hc2 j hreach

theorem sortChildrenF_sorted_reach {spans : List SpanData} :
    ∀ {n : ℕ} {g g2 : String → List String} {k : String},
      sortChildrenF spans n g k = some g2 →
      ∀ j, Reaches g2 k j → SortedByStart spans (g2 j) := by
  intro n
  induction n with
  | zero => intro g g2 k h; exact absurd h (by simp [sortChildrenF])
  | succ n ih =>
    intro g g2 k h j hreach
    simp only [sortChildrenF] at h
    have hpw := sortChildrenF_fold_pointwise _ _ _ h
    have hg1k : SortedByStart spans
        ((fun j2 => if j2 = k then insSortBy (nodeStart spans) (g k) else g j2) k) := by
      simp only [if_pos rfl]
      exact insSortBy_pairwise _ _
    rcases reaches_head hreach with rfl | ⟨c, hc, hcj⟩
    · exact pointwise_sorted (hpw k) hg1k
    · have hmem : ∀ jj x, x ∈ g2 jj ↔
          x ∈ (fun j2 => if j2 = k then insSortBy (nodeStart spans) (g k) else g j2) jj :=
        fun jj x => pointwise_mem (hpw jj)
      have hc1 : c ∈ insSortBy (nodeStart spans) (g k) := by
        have := (hmem k c).mp hc
        simpa using this
      exact sortChildrenF_fold_sorted_reach (fun h2 j2 hr2 => ih h2 j2 hr2)
        (insSortBy (nodeStart spans) (g k)) _ _ h c hc1 j hcj

/-- Stack budget for sortChildren: starting at a node k reachable from R,
with no cycle touching the subtree of R, a budget exceeding the number of
ids outside the already-visited ancestor set V suffices; the children
lists stay permutations of the linked ones. -/
theorem sortChildrenF_total {spans : List SpanData} {R : String}
    (hnrc : ∀ k, Reaches (children0 spans) R k →
      ∀ c ∈ children0 spans k, ¬ Reaches (children0 spans) c k) :
    ∀ (n : ℕ) (g : String → List String) (V : Finset String) (k : String),
      (∀ j, (g j).Perm (children0 spans j)) →
      k ∈ V →
      (∀ x ∈ V, x ∈ idSet spans) →
      (∀ x ∈ V, Reaches (children0 spans) x k) →
      Reaches (children0 spans) R k →
      (idSet spans \ V).card < n →
      ∃ g2, sortChildrenF spans n g k = some g2 ∧ ∀ j, (g2 j).Perm (children0 spans j) := by
  intro n
  induction n with
  | zero => intro g V k _ _ _ _ _ hcard; exact absurd hcard (Nat.not_lt_zero _)
  | succ n ih =>
    intro g V k hperm hkV hVU hVreach hRk hcard
    have hperm1 : ∀ j, ((fun j2 => if j2 = k then insSortBy (nodeStart spans) (g k) else g j2) j).Perm
        (children0 spans j) := by
      intro j
      by_cases hj : j = k
      · subst hj; simp only [if_pos rfl]; exact (insSortBy_perm _ _).trans (hperm j)
      · simp only [if_neg hj]; exact hperm j
    have hcsmem : ∀ c ∈ insSortBy (nodeStart spans) (g k), c ∈ children0 spans k := by
      intro c hc
      exact (hperm k).mem_iff.mp ((mem_insSortBy _ _ _).mp hc)
    have hfold : ∀ (cs : List String) (ga : String → List String),
        (∀ c ∈ cs, c ∈ children0 spans k) →
        (∀ j, (ga j).Perm (children0 spans j)) →
        ∃ gb, cs.foldlM (fun g2 c => sortChildrenF spans n g2 c) ga = some gb ∧
          ∀ j, (gb j).Perm (children0 spans j) := by
      intro cs
      induction cs with
      | nil => intro ga _ hga; exact ⟨ga, by simp, hga⟩
      | cons c cs ihc =>
        intro ga hcs hga
        have hcchild : c ∈ children0 spans k := hcs c (List.mem_cons_self c cs)
        have hcnotV : c ∉ V := by
          intro hcV
          exact hnrc k hRk c hcchild (hVreach c hcV)
        have hcU : c ∈ idSet spans := List.mem_toFinset.mpr (children0_subset_ids hcchild)
        have hcV2 : c ∈ idSet spans \ V := Finset.mem_sdiff.mpr ⟨hcU, hcnotV⟩
        have hsd : idSet spans \ insert c V = (idSet spans \ V).erase c := by
          ext x
          simp only [Finset.mem_sdiff, Finset.mem_insert, Finset.mem_erase]
          tauto
        have hcard2 : (idSet spans \ insert c V).card < n := by
          have hpos : 0 < (idSet spans \ V).card := Finset.card_pos.mpr ⟨c, hcV2⟩
          rw [hsd, Finset.card_erase_of_mem hcV2]
          omega
        obtain ⟨gmid, hstep, hgmid⟩ := ih ga (insert c V) c hga (Finset.mem_insert_self c V)
          (by
            intro x hx
            rcases Finset.mem_insert.mp hx with rfl | hx2
            · exact hcU
            · exact hVU x hx2)
          (by
            intro x hx
            rcases Finset.mem_insert.mp hx with rfl | hx2
            · exact reaches_refl _ x
            · exact reaches_snoc (hVreach x hx2) hcchild)
          (reaches_snoc hRk hcchild)
          hcard2
        obtain ⟨gb, hrest, hgb⟩ := ihc gmid (fun c2 hc2 => hcs c2 (List.mem_cons_of_mem c hc2)) hgmid
        refine ⟨gb, ?_, hgb⟩
        simp only [List.foldlM_cons]
        rw [hstep]
        simpa using hrest
    obtain ⟨gb, hf, hgb⟩ := hfold (insSortBy (nodeStart spans) (g k)) _ hcsmem hperm1
    refine ⟨gb, ?_, hgb⟩
    simp only [sortChildrenF]
    exact hf

/-- Stack budget for renderNode: the same bound as for sortChildren (the
render phase walks the same subtree). -/
theorem renderNodeF_total {spans : List SpanData} {g : String → List String} {R : String}
    (hpermg : ∀ j, (g j).Perm (children0 spans j))
    (hnrc : ∀ k, Reaches (children0 spans) R k →
      ∀ c ∈ children0 spans k, ¬ Reaches (children0 spans) c k)
    (total ts : ℚ) :
    ∀ (n : ℕ) (V : Finset String) (k : String) (pfx : String) (la ro : Bool),
      k ∈ V →
      (∀ x ∈ V, x ∈ idSet spans) →
      (∀ x ∈ V, Reaches (children0 spans) x k) →
      Reaches (children0 spans) R k →
      (idSet spans \ V).card < n →
      ∃ out, renderNodeF spans g total ts n k pfx la ro = some out := by
  intro n
  induction n with
  | zero => intro V k pfx la ro _ _ _ _ hcard; exact absurd hcard (Nat.not_lt_zero _)
  | succ n ih =>
    intro V k pfx la ro hkV hVU hVreach hRk hcard
    have hfe : ∀ (cs : List String) (pfx2 : String),
        (∀ c ∈ cs, c ∈ children0 spans k) →
        ∃ out, forEachWithLast
          (fun c last => renderNodeF spans g total ts n c pfx2 last false) cs = some out := by
      intro cs
      induction cs with
      | nil => intro pfx2 _; exact ⟨[], rfl⟩
      | cons c cs ihc =>
        intro pfx2 hcs
        have hcchild : c ∈ children0 spans k := hcs c (List.mem_cons_self c cs)
        have hcnotV : c ∉ V := fun hcV => hnrc k hRk c hcchild (hVreach c hcV)
        have hcU : c ∈ idSet spans := List.mem_toFinset.mpr (children0_subset_ids hcchild)
        have hcV2 : c ∈ idSet spans \ V := Finset.mem_sdiff.mpr ⟨hcU, hcnotV⟩
        have hsd : idSet spans \ insert c V = (idSet spans \ V).erase c := by
          ext x
          simp only [Finset.mem_sdiff, Finset.mem_insert, Finset.mem_erase]
          tauto
        have hcard2 : (idSet spans \ insert c V).card < n := by
          have hpos : 0 < (idSet spans \ V).card := Finset.card_pos.mpr ⟨c, hcV2⟩
          rw [hsd, Finset.card_erase_of_mem hcV2]
          omega
        obtain ⟨ls, hstep⟩ := ih (insert c V) c pfx2 cs.isEmpty false (Finset.mem_insert_self c V)
          (by
            intro x hx
            rcases Finset.mem_insert.mp hx with rfl | hx2
            · exact hcU
            · exact hVU x hx2)
          (by
            intro x hx
            rcases Finset.mem_insert.mp hx with rfl | hx2
            · exact reaches_refl _ x
            · exact reaches_snoc (hVreach x hx2) hcchild)
          (reaches_snoc hRk hcchild)
          hcard2
        obtain ⟨rest, hrest⟩ := ihc pfx2 (fun c2 hc2 => hcs c2 (List.mem_cons_of_mem c hc2))
        refine ⟨ls ++ rest, ?_⟩
        simp only [forEachWithLast]
        rw [hstep, hrest]
        rfl
    have hcsmem : ∀ c ∈ g k, c ∈ children0 spans k := fun c hc => (hpermg k).mem_iff.mp hc
    obtain ⟨out, hout⟩ := hfe (g k) (if ro then "" else pfx ++ (if la then "   " else "│  ")) hcsmem
    simp only [renderNodeF]
    rw [hout]
    exact ⟨_, rfl⟩

/-!
Helper lemmas about buildSpanTree branches and its projections.
-/

theorem parentless_getLast?_spec {spans : List SpanData} {r0 : SpanData}
    (h : (parentlessSpans spans).getLast? = some r0) :
    r0 ∈ spans ∧ truthyParent r0 = false := by
  have hmem : r0 ∈ parentlessSpans spans :=
    List.mem_of_mem_getLast? (Option.mem_def.mpr h)
  rcases List.mem_filter.mp hmem with ⟨h1, h2⟩
  exact ⟨h1, by simpa using h2⟩

theorem buildSpanTree_root_branch {spans : List SpanData} {r0 : SpanData} (hne : spans ≠ [])
    (h : (parentlessSpans spans).getLast? = some r0) (fuel : ℕ) :
    buildSpanTree spans fuel =
      (sortChildrenF spans fuel (children0 spans) r0.spanId).map (fun g => some (g, r0.spanId)) := by
  have hni : ¬(spans.isEmpty = true) := by simpa [List.isEmpty_iff] using hne
  simp only [buildSpanTree, if_neg hni, h]

theorem buildSpanTree_fallback_branch {spans : List SpanData} (hne : spans ≠ [])
    (h : (parentlessSpans spans).getLast? = none) {s0 : SpanData}
    (hh : (insSortBy SpanData.startTime spans).head? = some s0) (fuel : ℕ) :
    buildSpanTree spans fuel = some (some (children0 spans, s0.spanId)) := by
  have hni : ¬(spans.isEmpty = true) := by simpa [List.isEmpty_iff] using hne
  simp only [buildSpanTree, if_neg hni, h, hh]

theorem insSortBy_head?_isSome {α : Type} (key : α → ℚ) {l : List α} (h : l ≠ []) :
    ∃ s, (insSortBy key l).head? = some s := by
  cases hs : insSortBy key l with
  | nil =>
    have hp := insSortBy_perm key l
    rw [hs] at hp
    exact absurd hp.nil_eq.symm h
  | cons s rest => exact ⟨s, rfl⟩

theorem buildRootId_of_build {spans : List SpanData} {fuel : ℕ} {g : String → List String} {r : String}
    (h : buildSpanTree spans fuel = some (some (g, r))) :
    buildRootId spans fuel = some (some r) := by
  simp [buildRootId, h]

theorem buildChildrenOf_of_build {spans : List SpanData} {fuel : ℕ} {g : String → List String} {r : String}
    (h : buildSpanTree spans fuel = some (some (g, r))) (k : String) :
    buildChildrenOf spans fuel k = some (g k) := by
  simp [buildChildrenOf, h]

theorem gOf_of_build {spans : List SpanData} {fuel : ℕ} {g : String → List String} {r : String}
    (h : buildSpanTree spans fuel = some (some (g, r))) (k : String) :
    gOf spans fuel k = g k := by
  simp [gOf, buildChildrenOf, h]

theorem build_of_buildRootId {spans : List SpanData} {fuel : ℕ} {r : String}
    (h : buildRootId spans fuel = some (some r)) :
    ∃ g, buildSpanTree spans fuel = some (some (g, r)) := by
  cases hb : buildSpanTree spans fuel with
  | none => simp [buildRootId, hb] at h
  | some o =>
    cases o with
    | none => simp [buildRootId, hb] at h
    | some p =>
      obtain ⟨g0, r0⟩ := p
      have hr : r0 = r := by simpa [buildRootId, hb] using h
      exact ⟨g0, by rw [hr]⟩

/-!
Helper lemmas about the timeline bar arithmetic.
-/

theorem repChar_length (c : Char) (n : ℤ) : (repChar c n).length = n.toNat :=
  List.length_replicate _ _

theorem repChar_data (c : Char) (n : ℤ) : (repChar c n).data = List.replicate n.toNat c := rfl

theorem bar_core_spec (P L : ℤ) (W : ℕ) (hW : 1 ≤ W) :
    (repChar '·' (min (max 0 P) ((W : ℤ) - 1)) ++
      repChar '█' (max 1 (min (W : ℤ) (min (max 0 P) ((W : ℤ) - 1) + max 1 L) -
        min (max 0 P) ((W : ℤ) - 1))) ++
      repChar '·' (max 0 ((W : ℤ) - min (W : ℤ) (min (max 0 P) ((W : ℤ) - 1) + max 1 L)))).length
        = W ∧
    '█' ∈ (repChar '·' (min (max 0 P) ((W : ℤ) - 1)) ++
      repChar '█' (max 1 (min (W : ℤ) (min (max 0 P) ((W : ℤ) - 1) + max 1 L) -
        min (max 0 P) ((W : ℤ) - 1))) ++
      repChar '·' (max 0 ((W : ℤ) - min (W : ℤ) (min (max 0 P) ((W : ℤ) - 1) + max 1 L)))).data := by
  have hW1 : (1 : ℤ) ≤ (W : ℤ) := by exact_mod_cast hW
  set A : ℤ := min (max 0 P) ((W : ℤ) - 1) with hA
  set E : ℤ := min (W : ℤ) (A + max 1 L) with hE
  have hA0 : 0 ≤ A := le_min (le_max_left 0 P) (by omega)
  have hAW : A ≤ (W : ℤ) - 1 := min_le_right _ _
  have hL1 : 1 ≤ max 1 L := le_max_left 1 L
  have hE1 : A + 1 ≤ E := le_min (by omega) (by omega)
  have hEW : E ≤ (W : ℤ) := min_le_left _ _
  have hmax1 : max 1 (E - A) = E - A := max_eq_right (by omega)
  have hmax0 : max 0 ((W : ℤ) - E) = (W : ℤ) - E := max_eq_right (by omega)
  constructor
  · rw [String.length_append, String.length_append, repChar_length, repChar_length,
      repChar_length, hmax1, hmax0]
    omega
  · rw [String.data_append, String.data_append, repChar_data, repChar_data, repChar_data, hmax1]
    refine List.mem_append.mpr (Or.inl (List.mem_append.mpr (Or.inr ?_)))
    refine List.mem_replicate.mpr ⟨?_, rfl⟩
    omega

/-!
Claim theorems.
-/

/-- C5: for every node rendered with nonnegative duration, nonnegative
totalDuration, and barWidth at least 1, renderTimelineBar returns a string
of length exactly barWidth containing at least one solid-block glyph. -/
theorem C5_timeline_bar_width (startTime duration traceStartTime totalDuration : ℚ)
    (barWidth : ℕ) (hd : 0 ≤ duration) (ht : 0 ≤ totalDuration) (hW : 1 ≤ barWidth) :
    (renderTimelineBar startTime duration traceStartTime totalDuration barWidth).length = barWidth ∧
    '█' ∈ (renderTimelineBar startTime duration traceStartTime totalDuration barWidth).data := by
  by_cases htz : totalDuration = 0
  · simp only [renderTimelineBar, if_pos htz]
    constructor
    · rw [repChar_length]; omega
    · rw [repChar_data]
      refine List.mem_replicate.mpr ⟨?_, rfl⟩
      omega
  · simp only [renderTimelineBar, if_neg htz]
    exact bar_core_spec _ _ barWidth hW

/-- C5 witness: the theorem instantiated at a concrete bar. -/
theorem C5_timeline_bar_width_witness :
    (0:ℚ) ≤ 10 ∧ (0:ℚ) ≤ 100 ∧ 1 ≤ 40 ∧
    ((renderTimelineBar 20 10 0 100 40).length = 40 ∧
      '█' ∈ (renderTimelineBar 20 10 0 100 40).data) :=
  ⟨by decide, by decide, by decide,
    C5_timeline_bar_width 20 10 0 100 40 (by decide) (by decide) (by decide)⟩

/-- C8: when totalDuration is 0 the bar is entirely solid glyphs of length
exactly barWidth, whatever the node's startTime and duration are. -/
theorem C8_zero_total_bar (startTime duration traceStartTime : ℚ) (barWidth : ℕ)
    (hW : 1 ≤ barWidth) :
    (renderTimelineBar startTime duration traceStartTime 0 barWidth).length = barWidth ∧
    ∀ c ∈ (renderTimelineBar startTime duration traceStartTime 0 barWidth).data, c = '█' := by
  constructor
  · unfold renderTimelineBar
    rw [if_pos rfl, repChar_length]
    omega
  · unfold renderTimelineBar
    rw [if_pos rfl, repChar_data]
    intro c hc
    exact List.eq_of_mem_replicate hc

/-- C8 witness: the theorem instantiated at a concrete degenerate bar. -/
theorem C8_zero_total_bar_witness :
    1 ≤ 7 ∧ ((renderTimelineBar 3 4 1 0 7).length = 7 ∧
      ∀ c ∈ (renderTimelineBar 3 4 1 0 7).data, c = '█') :=
  ⟨by decide, C8_zero_total_bar 3 4 1 7 (by decide)⟩

theorem head?_mem_of_eq {α : Type} {l : List α} {a : α} (h : l.head? = some a) : a ∈ l := by
  cases l with
  | nil => simp at h
  | cons x xs =>
    simp only [List.head?_cons, Option.some.injEq] at h
    subst h
    exact List.mem_cons_self x xs

/-- C6: with two or more parentless spans, whenever buildSpanTree returns
a tree its root is the last parentless span in input order (last-wins),
not the first and not the earliest-starting one. -/
theorem C6_last_parentless_root {spans : List SpanData} {r0 : SpanData}
    (htwo : 2 ≤ (parentlessSpans spans).length)
    (hlast : (parentlessSpans spans).getLast? = some r0) :
    ∀ fuel, buildRootId spans fuel = none ∨ buildRootId spans fuel = some (some r0.spanId) := by
  intro fuel
  have hne : spans ≠ [] := by
    intro he
    rw [he] at htwo
    simp [parentlessSpans] at htwo
  have hb := buildSpanTree_root_branch hne hlast fuel
  cases hs : sortChildrenF spans fuel (children0 spans) r0.spanId with
  | none => left; simp [buildRootId, hb, hs]
  | some g => right; simp [buildRootId, hb, hs]

/-- C6 witness: for the input with two parentless spans Y (start 1, first)
and X (start 5, last), the recorded root is X. -/
theorem C6_last_parentless_root_witness :
    2 ≤ (parentlessSpans exTwoRoots).length ∧
    (parentlessSpans exTwoRoots).getLast? = some (⟨"X", none, "x", 5, 1, []⟩ : SpanData) ∧
    (buildRootId exTwoRoots 2 = none ∨ buildRootId exTwoRoots 2 = some (some "X")) ∧
    buildRootId exTwoRoots 2 = some (some "X") :=
  ⟨by decide, by decide,
    @C6_last_parentless_root exTwoRoots ⟨"X", none, "x", 5, 1, []⟩ (by decide) (by decide) 2,
    by decide⟩

/-- C7: when every span declares a truthy parent (no parentless span),
buildSpanTree returns, at every stack budget, a tree whose root is the
span with the minimum startTime, ties resolved to the earliest such span
in input order (the head of the stable sort, equivalently the first span
whose startTime is at most the minimum). -/
theorem C7_fallback_min_root {spans : List SpanData}
    (hne : spans ≠ []) (hall : ∀ s ∈ spans, truthyParent s = true) (fuel : ℕ) :
    ∃ s0, s0 ∈ spans ∧ buildRootId spans fuel = some (some s0.spanId) ∧
      (∀ t ∈ spans, s0.startTime ≤ t.startTime) ∧
      spans.find? (fun t => decide (t.startTime ≤ s0.startTime)) = some s0 := by
  have hpl : (parentlessSpans spans).getLast? = none := by
    have : parentlessSpans spans = [] := by
      simp only [parentlessSpans, List.filter_eq_nil_iff]
      intro s hs
      simp [hall s hs]
    rw [this]
    rfl
  obtain ⟨s0, hs0⟩ := insSortBy_head?_isSome SpanData.startTime hne
  have hb := buildSpanTree_fallback_branch hne hpl hs0 fuel
  refine ⟨s0, ?_, ?_, ?_, ?_⟩
  · exact (mem_insSortBy _ _ _).mp (head?_mem_of_eq hs0)
  · simp [buildRootId, hb]
  · exact insSortBy_head?_min SpanData.startTime spans s0 hs0
  · exact insSortBy_head?_find? SpanData.startTime spans s0 hs0

/-- C7 witness: the theorem instantiated at an input where every span has
a parent; B is the earliest starter and first of the tie between B and C. -/
theorem C7_fallback_min_root_witness :
    exAllParented ≠ [] ∧ (∀ s ∈ exAllParented, truthyParent s = true) ∧
    (∃ s0, s0 ∈ exAllParented ∧ buildRootId exAllParented 1 = some (some s0.spanId) ∧
      (∀ t ∈ exAllParented, s0.startTime ≤ t.startTime) ∧
      exAllParented.find? (fun t => decide (t.startTime ≤ s0.startTime)) = some s0) ∧
    buildRootId exAllParented 1 = some (some "B") :=
  ⟨by decide, by decide, C7_fallback_min_root (by decide) (by decide) 1, by decide⟩

theorem sortCrash_exDupSelf : ∀ (n : ℕ) (g : String → List String), g "A" = ["A"] →
    sortChildrenF exDupSelf n g "A" = none := by
  intro n
  induction n with
  | zero => intro g hg; rfl
  | succ n ih =>
    intro g hg
    simp only [sortChildrenF, hg]
    have hsort : insSortBy (nodeStart exDupSelf) ["A"] = ["A"] := rfl
    rw [hsort]
    simp only [List.foldlM_cons]
    rw [ih (fun j => if j = "A" then ["A"] else g j) (by simp)]
    rfl

/-- C9 counterexample: on a non-empty input with a duplicated spanId whose
node becomes its own child while a root is recorded, buildSpanTree
overflows the stack inside sortChildren at every stack budget, so it never
returns a present root. -/
theorem C9_counterexample : buildCrashes exDupSelf ∧ exDupSelf ≠ [] := by
  constructor
  · intro fuel
    have hlast : (parentlessSpans exDupSelf).getLast? =
        some (⟨"A", none, "a", 0, 1, []⟩ : SpanData) := by decide
    have hb := buildSpanTree_root_branch (by decide) hlast fuel
    rw [hb]
    rw [sortCrash_exDupSelf fuel (children0 exDupSelf) (by decide)]
    rfl
  · decide

theorem renderCrash_exCycle : ∀ (n : ℕ) (total ts : ℚ) (k pfx : String) (la ro : Bool),
    (k = "A" ∨ k = "B") →
    renderNodeF exCycle (children0 exCycle) total ts n k pfx la ro = none := by
  intro n
  induction n with
  | zero => intro total ts k pfx la ro hk; rfl
  | succ n ih =>
    intro total ts k pfx la ro hk
    rcases hk with rfl | rfl
    · simp only [renderNodeF]
      have hg : children0 exCycle "A" = ["B"] := by decide
      rw [hg]
      simp only [forEachWithLast, List.isEmpty_nil]
      rw [ih total ts "B" _ true false (Or.inr rfl)]
      rfl
    · simp only [renderNodeF]
      have hg : children0 exCycle "B" = ["A"] := by decide
      rw [hg]
      simp only [forEachWithLast, List.isEmpty_nil]
      rw [ih total ts "A" _ true false (Or.inl rfl)]
      rfl

/-- C2 counterexample: on the two-span parent cycle (A and B each other's
parents, no parentless span) buildSpanTree returns a tree, but renderTrace
overflows the stack at every stack budget: rendering is not total, and no
graceful degradation happens on this cyclic input. -/
theorem C2_counterexample : renderTraceCrashes exCycle := by
  intro fuel
  have hhead : (insSortBy SpanData.startTime exCycle).head? =
      some (⟨"A", some "B", "a", 0, 1, []⟩ : SpanData) := by decide
  have hb := buildSpanTree_fallback_branch (by decide) (by decide) hhead fuel
  simp only [renderTraceF, hb, renderSpanTreeF]
  rw [renderCrash_exCycle fuel _ _ "A" "" true true (Or.inl rfl)]
  rfl

theorem count_map_countP (f : SpanData → String) (l : List SpanData) (a : String) :
    (l.map f).count a = l.countP (fun x => f x == a) := by
  induction l with
  | nil => rfl
  | cons x xs ih =>
    by_cases h : f x = a
    · simp [List.count_cons, List.countP_cons, h, ih]
    · simp [List.count_cons, List.countP_cons, h, ih]

theorem countP_unique_id {spans : List SpanData} (hU : (spans.map SpanData.spanId).Nodup)
    {s : SpanData} (hs : s ∈ spans) (q : SpanData → Bool) (hq : q s = true) :
    spans.countP (fun t => t.spanId == s.spanId && q t) = 1 := by
  induction spans with
  | nil => simp at hs
  | cons x xs ih =>
    rw [List.map_cons, List.nodup_cons] at hU
    rcases List.mem_cons.mp hs with rfl | hs2
    · have h0 : xs.countP (fun t => t.spanId == s.spanId && q t) = 0 := by
        rw [List.countP_eq_zero]
        intro t ht hqt
        simp only [Bool.and_eq_true, beq_iff_eq] at hqt
        exact hU.1 (hqt.1 ▸ List.mem_map_of_mem SpanData.spanId ht)
      simp [List.countP_cons, h0, hq]
    · have hne : x.spanId ≠ s.spanId := by
        intro he
        exact hU.1 (he ▸ List.mem_map_of_mem SpanData.spanId hs2)
      simp [List.countP_cons, hne, ih hU.2 hs2]

theorem children0_count_unique {spans : List SpanData} (hU : (spans.map SpanData.spanId).Nodup)
    {s : SpanData} (hs : s ∈ spans) {p : String} (hp : s.parentSpanId = some p)
    (hpne : p ≠ "") (hhas : hasId spans p = true) :
    (children0 spans p).count s.spanId = 1 := by
  unfold children0
  rw [count_map_countP]
  have hpred : (fun t => t.spanId == s.spanId &&
      (truthyParent t && (t.parentSpanId == some p) && hasId spans p)) =
      (fun t => SpanData.spanId t == s.spanId &&
        (truthyParent t && (t.parentSpanId == some p) && hasId spans p)) := rfl
  rw [List.countP_filter]
  have hq : (truthyParent s && (s.parentSpanId == some p) && hasId spans p) = true := by
    have ht : truthyParent s = true := by
      unfold truthyParent
      rw [hp]
      simpa using hpne
    simp [ht, hp, hhas]
  exact countP_unique_id hU hs _ hq

/-- C1: for unique spanIds with exactly one parentless span, buildSpanTree
(at the stack budget spans.length + 1, which the termination lemma shows
is enough) returns the tree rooted at that span, and every other span
whose parentSpanId names a present spanId occurs exactly once in the
children list of that parent's node. -/
theorem C1_unique_root_children {spans : List SpanData} {r0 : SpanData}
    (hU : (spans.map SpanData.spanId).Nodup)
    (hP : parentlessSpans spans = [r0]) :
    buildRootId spans (spans.length + 1) = some (some r0.spanId) ∧
    ∀ s ∈ spans, ∀ p, s.parentSpanId = some p → p ≠ "" → hasId spans p = true →
      ((buildChildrenOf spans (spans.length + 1) p).getD []).count s.spanId = 1 := by
  have hlast : (parentlessSpans spans).getLast? = some r0 := by rw [hP]; rfl
  obtain ⟨hr0, hnt⟩ := parentless_getLast?_spec hlast
  have hne : spans ≠ [] := List.ne_nil_of_mem hr0
  have hnrc := uniq_nrc hU hr0 hnt
  have hRid : r0.spanId ∈ idSet spans :=
    List.mem_toFinset.mpr (List.mem_map_of_mem SpanData.spanId hr0)
  have hcard : (idSet spans \ {r0.spanId}).card < spans.length + 1 := by
    have h1 : (idSet spans \ {r0.spanId}).card ≤ (idSet spans).card :=
      Finset.card_le_card (Finset.sdiff_subset)
    have h2 : (idSet spans).card ≤ (spans.map SpanData.spanId).length :=
      List.toFinset_card_le _
    rw [List.length_map] at h2
    omega
  obtain ⟨g2, hsort, hperm2⟩ := sortChildrenF_total hnrc (spans.length + 1)
    (children0 spans) {r0.spanId} r0.spanId
    (fun j => List.Perm.refl _)
    (Finset.mem_singleton_self _)
    (by
      intro x hx
      rw [Finset.mem_singleton.mp hx]
      exact hRid)
    (by
      intro x hx
      rw [Finset.mem_singleton.mp hx]
      exact reaches_refl _ _)
    (reaches_refl _ _)
    hcard
  have hb : buildSpanTree spans (spans.length + 1) = some (some (g2, r0.spanId)) := by
    rw [buildSpanTree_root_branch hne hlast, hsort]
    rfl
  constructor
  · exact buildRootId_of_build hb
  · intro s hs p hp hpne hhas
    rw [buildChildrenOf_of_build hb p]
    simp only [Option.getD_some]
    rw [(hperm2 p).count_eq]
    exact children0_count_unique hU hs hp hpne hhas

/-- C1 witness: the theorem instantiated at a concrete three-span trace
(the valid child B occurs exactly once under its parent A). -/
theorem C1_unique_root_children_witness :
    (exRoot.map SpanData.spanId).Nodup ∧
    parentlessSpans exRoot = [(⟨"A", none, "root", 0, 100, []⟩ : SpanData)] ∧
    buildRootId exRoot (exRoot.length + 1) = some (some "A") ∧
    (∀ s ∈ exRoot, ∀ p, s.parentSpanId = some p → p ≠ "" → hasId exRoot p = true →
      ((buildChildrenOf exRoot (exRoot.length + 1) p).getD []).count s.spanId = 1) := by
  refine ⟨by decide, by decide, ?_, ?_⟩
  · exact (@C1_unique_root_children exRoot ⟨"A", none, "root", 0, 100, []⟩ (by decide) (by decide)).1
  · exact (@C1_unique_root_children exRoot ⟨"A", none, "root", 0, 100, []⟩ (by decide) (by decide)).2

theorem card_sdiff_singleton_lt (spans : List SpanData) (R : String) :
    (idSet spans \ {R}).card < spans.length + 1 := by
  have h1 : (idSet spans \ {R}).card ≤ (idSet spans).card :=
    Finset.card_le_card Finset.sdiff_subset
  have h2 : (idSet spans).card ≤ (spans.map SpanData.spanId).length :=
    List.toFinset_card_le _
  rw [List.length_map] at h2
  omega

theorem build_root_branch_total {spans : List SpanData} {r0 : SpanData}
    (hlast : (parentlessSpans spans).getLast? = some r0)
    (hnrc : ∀ k, Reaches (children0 spans) r0.spanId k →
      ∀ c ∈ children0 spans k, ¬ Reaches (children0 spans) c k) :
    ∃ g2, buildSpanTree spans (spans.length + 1) = some (some (g2, r0.spanId)) ∧
      ∀ j, (g2 j).Perm (children0 spans j) := by
  obtain ⟨hr0, _⟩ := parentless_getLast?_spec hlast
  have hne : spans ≠ [] := List.ne_nil_of_mem hr0
  have hRid : r0.spanId ∈ idSet spans :=
    List.mem_toFinset.mpr (List.mem_map_of_mem SpanData.spanId hr0)
  obtain ⟨g2, hsort, hperm2⟩ := sortChildrenF_total hnrc (spans.length + 1)
    (children0 spans) {r0.spanId} r0.spanId
    (fun j => List.Perm.refl _)
    (Finset.mem_singleton_self _)
    (by
      intro x hx
      rw [Finset.mem_singleton.mp hx]
      exact hRid)
    (by
      intro x hx
      rw [Finset.mem_singleton.mp hx]
      exact reaches_refl _ _)
    (reaches_refl _ _)
    (card_sdiff_singleton_lt spans r0.spanId)
  refine ⟨g2, ?_, hperm2⟩
  rw [buildSpanTree_root_branch hne hlast, hsort]
  rfl

theorem renderNodeF_total_root {spans : List SpanData} {g : String → List String} {R : String}
    (hpermg : ∀ j, (g j).Perm (children0 spans j))
    (hnrc : ∀ k, Reaches (children0 spans) R k →
      ∀ c ∈ children0 spans k, ¬ Reaches (children0 spans) c k)
    (hRid : R ∈ idSet spans) (total ts : ℚ) :
    ∃ out, renderNodeF spans g total ts (spans.length + 1) R "" true true = some out :=
  renderNodeF_total hpermg hnrc total ts (spans.length + 1) {R} R "" true true
    (Finset.mem_singleton_self _)
    (by
      intro x hx
      rw [Finset.mem_singleton.mp hx]
      exact hRid)
    (by
      intro x hx
      rw [Finset.mem_singleton.mp hx]
      exact reaches_refl _ _)
    (reaches_refl _ _)
    (card_sdiff_singleton_lt spans R)

/-- C9 (amended): buildSpanTree returns the absent tree for the empty
input and renderTrace then prints nothing at every stack budget; and for
every non-empty input with unique spanIds, buildSpanTree returns a
present root at the stack budget spans.length + 1.  (Without unique
spanIds a non-empty input can crash the builder instead, see the
counterexample.) -/
theorem C9_empty_noop_present_root :
    (∀ fuel, buildSpanTree ([] : List SpanData) fuel = some none) ∧
    (∀ fuel tid, renderTraceF tid [] fuel = some []) ∧
    (∀ spans : List SpanData, spans ≠ [] → (spans.map SpanData.spanId).Nodup →
      ∃ r, buildRootId spans (spans.length + 1) = some (some r)) := by
  refine ⟨fun fuel => rfl, fun fuel tid => rfl, ?_⟩
  intro spans hne hU
  cases hlast : (parentlessSpans spans).getLast? with
  | some r0 =>
    obtain ⟨hr0, hnt⟩ := parentless_getLast?_spec hlast
    obtain ⟨g2, hb, _⟩ := build_root_branch_total hlast (uniq_nrc hU hr0 hnt)
    exact ⟨r0.spanId, buildRootId_of_build hb⟩
  | none =>
    obtain ⟨s0, hs0⟩ := insSortBy_head?_isSome SpanData.startTime hne
    have hb := buildSpanTree_fallback_branch hne hlast hs0 (spans.length + 1)
    exact ⟨s0.spanId, buildRootId_of_build hb⟩

/-- C9 witness: the empty-input parts at a concrete budget, and the
present-root part at a concrete unique-id input. -/
theorem C9_empty_noop_present_root_witness :
    buildSpanTree ([] : List SpanData) 3 = some none ∧
    renderTraceF "t" [] 3 = some [] ∧
    exTwoRoots ≠ [] ∧ (exTwoRoots.map SpanData.spanId).Nodup ∧
    ∃ r, buildRootId exTwoRoots (exTwoRoots.length + 1) = some (some r) :=
  ⟨C9_empty_noop_present_root.1 3, C9_empty_noop_present_root.2.1 3 "t",
    by decide, by decide,
    C9_empty_noop_present_root.2.2 exTwoRoots (by decide) (by decide)⟩

/-- C2 (amended): tree building and rendering terminate with no error on
every input whose child graph is acyclic (in particular on every input
whose parent references contain no cycle); the stack budget
spans.length + 1 suffices.  (On a parent cycle with no parentless span,
rendering instead overflows the stack, see the counterexample.) -/
theorem C2_acyclic_render_total {spans : List SpanData}
    (hacyc : ∀ k, ∀ c ∈ children0 spans k, ¬ Reaches (children0 spans) c k) (tid : String) :
    ∃ out, renderTraceF tid spans (spans.length + 1) = some out := by
  by_cases hne : spans = []
  · subst hne
    exact ⟨[], rfl⟩
  · cases hlast : (parentlessSpans spans).getLast? with
    | some r0 =>
      obtain ⟨g2, hb, hperm⟩ := build_root_branch_total hlast (fun k _ => hacyc k)
      obtain ⟨hr0, _⟩ := parentless_getLast?_spec hlast
      have hRid : r0.spanId ∈ idSet spans :=
        List.mem_toFinset.mpr (List.mem_map_of_mem SpanData.spanId hr0)
      obtain ⟨out, hout⟩ := renderNodeF_total_root hperm (fun k _ => hacyc k) hRid
        ((getNode spans r0.spanId).duration) ((getNode spans r0.spanId).startTime)
      simp only [renderTraceF, hb, renderSpanTreeF]
      rw [hout]
      exact ⟨_, rfl⟩
    | none =>
      obtain ⟨s0, hs0⟩ := insSortBy_head?_isSome SpanData.startTime hne
      have hb := buildSpanTree_fallback_branch hne hlast hs0 (spans.length + 1)
      have hs0mem : s0 ∈ spans := (mem_insSortBy _ _ _).mp (head?_mem_of_eq hs0)
      have hRid : s0.spanId ∈ idSet spans :=
        List.mem_toFinset.mpr (List.mem_map_of_mem SpanData.spanId hs0mem)
      obtain ⟨out, hout⟩ := renderNodeF_total_root (fun j => List.Perm.refl _)
        (fun k _ => hacyc k) hRid
        ((getNode spans s0.spanId).duration) ((getNode spans s0.spanId).startTime)
      simp only [renderTraceF, hb, renderSpanTreeF]
      rw [hout]
      exact ⟨_, rfl⟩

/-- C2 witness: the theorem applied to a concrete acyclic two-span trace. -/
theorem C2_acyclic_render_total_witness :
    (∀ k, ∀ c ∈ children0 exPair k, ¬ Reaches (children0 exPair) c k) ∧
    ∃ out, renderTraceF "t" exPair (exPair.length + 1) = some out := by
  have hacyc : ∀ k, ∀ c ∈ children0 exPair k, ¬ Reaches (children0 exPair) c k := by
    intro k c hc hr
    obtain ⟨s, hs, hsc, hts, hp, _⟩ := mem_children0.mp hc
    have hs2 : s = (⟨"A", none, "a", 0, 1, []⟩ : SpanData) ∨
        s = (⟨"B", some "A", "b", 1, 1, []⟩ : SpanData) := by
      simpa [exPair] using hs
    rcases hs2 with rfl | rfl
    · exact absurd hts (by decide)
    · have hk : "A" = k := Option.some.inj hp
      have hcB : c = "B" := hsc.symm
      subst hcB
      rw [← hk] at hr
      have hBempty : children0 exPair "B" = [] := by decide
      rcases reaches_head hr with he | ⟨c2, hc2, _⟩
      · exact absurd he (by decide)
      · rw [hBempty] at hc2
        exact absurd hc2 (List.not_mem_nil c2)
  exact ⟨hacyc, C2_acyclic_render_total hacyc "t"⟩

/-- C3 counterexample: in the no-parentless-span fallback no sorting pass
runs: the fallback root F keeps its children in input order B (start 5),
C (start 1), which is not nondecreasing in startTime. -/
theorem C3_counterexample :
    buildRootId exFallback 1 = some (some "F") ∧
    buildChildrenOf exFallback 1 "F" = some ["B", "C"] ∧
    ¬ SortedByStart exFallback ["B", "C"] := by
  refine ⟨by decide, by decide, ?_⟩
  intro hs
  have h1 := (List.pairwise_cons.mp hs).1 "C" (List.mem_cons_self "C" [])
  exact absurd h1 (by decide)

/-- C3 (amended): when a parentless span was recorded as root, every node
reachable from the root of the returned tree has its children list
nondecreasing in the nodes' startTime; in the fallback branch the children
lists keep input order and need not be sorted (see the counterexample). -/
theorem C3_sorted_children_rooted {spans : List SpanData} {r0 : SpanData} {fuel : ℕ} {rId : String}
    (hlast : (parentlessSpans spans).getLast? = some r0)
    (hroot : buildRootId spans fuel = some (some rId)) :
    ∀ k, Reaches (gOf spans fuel) rId k → SortedByStart spans (gOf spans fuel k) := by
  intro k hreach
  have hne : spans ≠ [] := List.ne_nil_of_mem (parentless_getLast?_spec hlast).1
  have hbr := buildSpanTree_root_branch hne hlast fuel
  cases hs : sortChildrenF spans fuel (children0 spans) r0.spanId with
  | none =>
    have hnone : buildRootId spans fuel = none := by simp [buildRootId, hbr, hs]
    rw [hnone] at hroot
    exact absurd hroot (by simp)
  | some g2 =>
    have hbuild : buildSpanTree spans fuel = some (some (g2, r0.spanId)) := by
      rw [hbr, hs]
      rfl
    have hrid : rId = r0.spanId := by
      have h2 := buildRootId_of_build hbuild
      rw [hroot] at h2
      exact Option.some.inj (Option.some.inj h2)
    have hgOf : ∀ j, gOf spans fuel j = g2 j := gOf_of_build hbuild
    have hmem : ∀ j x, x ∈ gOf spans fuel j ↔ x ∈ g2 j := by
      intro j x
      rw [hgOf j]
    have hreach2 : Reaches g2 r0.spanId k := by
      have ha := (reaches_congr hmem).mp hreach
      rw [hrid] at ha
      exact ha
    rw [hgOf k]
    exact sortChildrenF_sorted_reach hs k hreach2

/-- C3 witness: on a trace with a parentless root, the root's children in
the returned tree are sorted by startTime. -/
theorem C3_sorted_children_rooted_witness :
    (parentlessSpans exRoot).getLast? = some (⟨"A", none, "root", 0, 100, []⟩ : SpanData) ∧
    buildRootId exRoot 4 = some (some "A") ∧
    SortedByStart exRoot (gOf exRoot 4 "A") :=
  ⟨by decide, by decide,
    @C3_sorted_children_rooted exRoot ⟨"A", none, "root", 0, 100, []⟩ 4 "A"
      (by decide) (by decide) "A" (reaches_refl _ _)⟩

/-- C4 counterexample: a span whose non-empty parentSpanId matches no
input spanId can appear in the returned tree: when no parentless span
exists the fallback selects the earliest-starting span as root even if it
is such an orphan, and it is rendered as the root. -/
theorem C4_counterexample :
    truthyParent (⟨"A", some "Z", "a", 0, 1, []⟩ : SpanData) = true ∧
    hasId exOrphan "Z" = false ∧
    (⟨"A", some "Z", "a", 0, 1, []⟩ : SpanData) ∈ exOrphan ∧
    buildRootId exOrphan 1 = some (some "A") := by
  decide

/-- C4 (amended): with unique spanIds, a span whose non-empty parentSpanId
matches no input spanId has no in-edges in the tree, so if it appears at
all among the nodes reachable from the root then it is the root itself,
and that can only happen through the no-parentless-span fallback. -/
theorem C4_orphan_unreachable {spans : List SpanData} {s : SpanData} {fuel : ℕ} {rId : String}
    (hU : (spans.map SpanData.spanId).Nodup)
    (hs : s ∈ spans) (p : String) (hp : s.parentSpanId = some p) (hpne : p ≠ "")
    (hdangling : hasId spans p = false)
    (hroot : buildRootId spans fuel = some (some rId)) :
    Reaches (gOf spans fuel) rId s.spanId →
      rId = s.spanId ∧ (parentlessSpans spans).getLast? = none := by
  intro hreach
  obtain ⟨g, hb⟩ := build_of_buildRootId hroot
  have hne : spans ≠ [] := List.ne_nil_of_mem hs
  have hno : ∀ k, s.spanId ∉ children0 spans k := by
    intro k hmemk
    obtain ⟨t, ht, htc, _, htp, hth⟩ := mem_children0.mp hmemk
    have hts : t = s := uniq_span_eq hU ht hs htc
    subst hts
    rw [hp] at htp
    have hkp : p = k := Option.some.inj htp
    rw [← hkp] at hth
    rw [hdangling] at hth
    exact Bool.noConfusion hth
  have hgmem : ∀ j x, x ∈ g j ↔ x ∈ children0 spans j := by
    cases hlast : (parentlessSpans spans).getLast? with
    | some r0 =>
      have hbr := buildSpanTree_root_branch hne hlast fuel
      rw [hbr] at hb
      cases hsort : sortChildrenF spans fuel (children0 spans) r0.spanId with
      | none => rw [hsort] at hb; simp at hb
      | some g2 =>
        rw [hsort] at hb
        simp only [Option.map_some', Option.some.injEq, Prod.mk.injEq] at hb
        obtain ⟨hg2, _⟩ := hb
        rw [← hg2]
        exact sortChildrenF_mem hsort
    | none =>
      obtain ⟨s0, hs0⟩ := insSortBy_head?_isSome SpanData.startTime hne
      have hbf := buildSpanTree_fallback_branch hne hlast hs0 fuel
      rw [hbf] at hb
      simp only [Option.some.injEq, Prod.mk.injEq] at hb
      obtain ⟨hg2, _⟩ := hb
      rw [← hg2]
      exact fun j x => Iff.rfl
  have hnoG : ∀ k, s.spanId ∉ g k := fun k hk => hno k ((hgmem k _).mp hk)
  have hreachG : Reaches g rId s.spanId :=
    (reaches_congr (fun j x => by rw [gOf_of_build hb j])).mp hreach
  have hrid : rId = s.spanId := reaches_no_inedge hnoG hreachG
  refine ⟨hrid, ?_⟩
  cases hlast : (parentlessSpans spans).getLast? with
  | none => rfl
  | some r0 =>
    obtain ⟨hr0mem, hr0nt⟩ := parentless_getLast?_spec hlast
    have hbr := buildSpanTree_root_branch hne hlast fuel
    rw [hbr] at hb
    cases hsort : sortChildrenF spans fuel (children0 spans) r0.spanId with
    | none => rw [hsort] at hb; simp at hb
    | some g2 =>
      rw [hsort] at hb
      simp only [Option.map_some', Option.some.injEq, Prod.mk.injEq] at hb
      obtain ⟨_, hr⟩ := hb
      have hrs : r0 = s := uniq_span_eq hU hr0mem hs (by rw [hr, hrid])
      rw [hrs] at hr0nt
      have hst : truthyParent s = true := by
        unfold truthyParent
        rw [hp]
        simpa using hpne
      rw [hst] at hr0nt
      exact Bool.noConfusion hr0nt

/-- C4 witness: the amended theorem at the concrete orphan input, where
the orphan is reachable precisely because it is the fallback root. -/
theorem C4_orphan_unreachable_witness :
    (exOrphan.map SpanData.spanId).Nodup ∧
    (⟨"A", some "Z", "a", 0, 1, []⟩ : SpanData) ∈ exOrphan ∧
    hasId exOrphan "Z" = false ∧
    buildRootId exOrphan 1 = some (some "A") ∧
    ("A" = "A" ∧ (parentlessSpans exOrphan).getLast? = none) :=
  ⟨by decide, by decide, by decide, by decide,
    @C4_orphan_unreachable exOrphan ⟨"A", some "Z", "a", 0, 1, []⟩ 1 "A"
      (by decide) (by decide) "Z" rfl (by decide) (by decide) (by decide)
      (reaches_refl _ _)⟩

/-!
Helper lemmas for the heap embedding: the builder only writes to cells it
allocated itself, so every pre-existing cell (the spans array object and
all span records) is untouched.
-/

theorem heapExtends_refl (h : Heap) : heapExtends h h := ⟨le_refl _, fun _ _ => rfl⟩

theorem heapExtends_set {h0 h : Heap} {b : ℕ} {v : HVal} (hx : heapExtends h0 h)
    (hb : h0.cells.length ≤ b) : heapExtends h0 (h.set b v) := by
  refine ⟨?_, ?_⟩
  · have := hx.1
    simpa [Heap.set] using this
  · intro a ha
    have hne : b ≠ a := by omega
    show (h.set b v).cells[a]? = h0.get a
    rw [show (h.set b v).cells = h.cells.set b v from rfl, List.getElem?_set_ne hne]
    exact hx.2 a ha

theorem heapExtends_alloc {h0 h : Heap} {v : HVal} (hx : heapExtends h0 h) :
    heapExtends h0 (Heap.alloc h v).1 := by
  refine ⟨?_, ?_⟩
  · have := hx.1
    simp only [Heap.alloc, List.length_append, List.length_cons, List.length_nil]
    omega
  · intro a ha
    have ha2 : a < h.cells.length := lt_of_lt_of_le ha hx.1
    show (h.cells ++ [v])[a]? = h0.get a
    rw [List.getElem?_append_left ha2]
    exact hx.2 a ha

theorem heap_get_out (h : Heap) {a : ℕ} (ha : h.cells.length ≤ a) : h.get a = none := by
  show h.cells[a]? = none
  exact List.getElem?_eq_none ha

theorem nodeHigh_init (h : Heap) : nodeChildrenHigh h.cells.length h := by
  intro a ha s cs hget c _
  rw [heap_get_out h ha] at hget
  exact Option.noConfusion hget

theorem nodeHigh_set {n0 : ℕ} {h : Heap} {b : ℕ} {v : HVal} (hn : nodeChildrenHigh n0 h)
    (hv : ∀ s cs, v = HVal.nodeObj s cs → ∀ c ∈ cs, n0 ≤ c) :
    nodeChildrenHigh n0 (h.set b v) := by
  intro a ha s cs hget c hc
  by_cases hab : b = a
  · subst hab
    by_cases hlt : b < h.cells.length
    · have hv2 : (h.set b v).get b = some v := by
        show (h.cells.set b v)[b]? = some v
        exact List.getElem?_set_self hlt
      rw [hv2] at hget
      exact hv s cs (Option.some.inj hget) c hc
    · have hv2 : (h.set b v).get b = none := by
        apply heap_get_out
        show (h.cells.set b v).length ≤ b
        rw [List.length_set]
        omega
      rw [hv2] at hget
      exact Option.noConfusion hget
  · have heq : (h.set b v).get a = h.get a := by
      show (h.cells.set b v)[a]? = h.cells[a]?
      rw [List.getElem?_set_ne hab]
    rw [heq] at hget
    exact hn a ha s cs hget c hc

theorem nodeHigh_alloc {n0 : ℕ} {h : Heap} {v : HVal} (hn : nodeChildrenHigh n0 h)
    (hv : ∀ s cs, v = HVal.nodeObj s cs → ∀ c ∈ cs, n0 ≤ c) :
    nodeChildrenHigh n0 (Heap.alloc h v).1 := by
  intro a ha s cs hget c hc
  by_cases hlt : a < h.cells.length
  · have heq : (Heap.alloc h v).1.get a = h.get a := by
      show (h.cells ++ [v])[a]? = h.cells[a]?
      exact List.getElem?_append_left hlt
    rw [heq] at hget
    exact hn a ha s cs hget c hc
  · by_cases hae : a = h.cells.length
    · have heq : (Heap.alloc h v).1.get a = some v := by
        show (h.cells ++ [v])[a]? = some v
        subst hae
        rw [List.getElem?_append_right (le_refl _)]
        simp
      rw [heq] at hget
      exact hv s cs (Option.some.inj hget) c hc
    · have heq : (Heap.alloc h v).1.get a = none := by
        apply heap_get_out
        show (h.cells ++ [v]).length ≤ a
        rw [List.length_append]
        simp only [List.length_cons, List.length_nil]
        omega
      rw [heq] at hget
      exact Option.noConfusion hget

theorem readChildrenH_high {n0 : ℕ} {h : Heap} (hn : nodeChildrenHigh n0 h) {a : ℕ}
    (ha : n0 ≤ a) : ∀ c ∈ readChildrenH h a, n0 ≤ c := by
  intro c hc
  unfold readChildrenH at hc
  cases hget : h.get a with
  | none =>
    rw [hget] at hc
    exact absurd hc (List.not_mem_nil c)
  | some v =>
    cases v with
    | spanObj s =>
      rw [hget] at hc
      exact absurd hc (List.not_mem_nil c)
    | arrObj es =>
      rw [hget] at hc
      exact absurd hc (List.not_mem_nil c)
    | nodeObj s cs =>
      rw [hget] at hc
      exact hn a ha s cs hget c hc

theorem mapSet_high {m : List (String × ℕ)} {n0 v : ℕ} {k : String}
    (hm : ∀ kv ∈ m, n0 ≤ kv.2) (hv : n0 ≤ v) : ∀ kv ∈ mapSet m k v, n0 ≤ kv.2 := by
  induction m with
  | nil =>
    intro kv hkv
    simp only [mapSet] at hkv
    rcases List.mem_cons.mp hkv with rfl | h2
    · exact hv
    · exact absurd h2 (List.not_mem_nil kv)
  | cons x xs ih =>
    intro kv hkv
    simp only [mapSet] at hkv
    by_cases hx : x.1 = k
    · rw [if_pos hx] at hkv
      rcases List.mem_cons.mp hkv with rfl | h2
      · exact hv
      · exact hm kv (List.mem_cons_of_mem x h2)
    · rw [if_neg hx] at hkv
      rcases List.mem_cons.mp hkv with rfl | h2
      · exact hm kv (List.mem_cons_self _ _)
      · exact ih (fun kv2 hkv2 => hm kv2 (List.mem_cons_of_mem x hkv2)) kv h2

theorem mapGet_high {m : List (String × ℕ)} {n0 : ℕ} {k : String} {a : ℕ}
    (hm : ∀ kv ∈ m, n0 ≤ kv.2) (h : mapGet m k = some a) : n0 ≤ a := by
  unfold mapGet at h
  cases hf : m.find? (fun kv => kv.1 == k) with
  | none => rw [hf] at h; exact Option.noConfusion h
  | some kv =>
    rw [hf] at h
    simp only [Option.map_some', Option.some.injEq] at h
    rw [← h]
    exact hm kv (List.mem_of_find?_eq_some hf)

theorem createNodes_fold_inv (h0 : Heap) (refs : List ℕ) :
    ∀ (hm : Heap × List (String × ℕ)),
      heapExtends h0 hm.1 →
      nodeChildrenHigh h0.cells.length hm.1 →
      (∀ kv ∈ hm.2, h0.cells.length ≤ kv.2) →
      heapExtends h0 (refs.foldl createNodeStep hm).1 ∧
      nodeChildrenHigh h0.cells.length (refs.foldl createNodeStep hm).1 ∧
      (∀ kv ∈ (refs.foldl createNodeStep hm).2, h0.cells.length ≤ kv.2) := by
  induction refs with
  | nil => intro hm h1 h2 h3; exact ⟨h1, h2, h3⟩
  | cons r rs ih =>
    intro hm h1 h2 h3
    rw [List.foldl_cons]
    apply ih
    · exact heapExtends_alloc h1
    · exact nodeHigh_alloc h2 (fun s cs hv c hc => by
        cases hv
        exact absurd hc (List.not_mem_nil c))
    · exact mapSet_high h3 h1.1

theorem linkChildStep_inv {h0 : Heap} {m : List (String × ℕ)}
    (hmap : ∀ kv ∈ m, h0.cells.length ≤ kv.2) (hr : Heap × Option ℕ) (r : ℕ)
    (h1 : heapExtends h0 hr.1) (h2 : nodeChildrenHigh h0.cells.length hr.1)
    (h3 : ∀ ra, hr.2 = some ra → h0.cells.length ≤ ra) :
    heapExtends h0 (linkChildStep m hr r).1 ∧
    nodeChildrenHigh h0.cells.length (linkChildStep m hr r).1 ∧
    (∀ ra, (linkChildStep m hr r).2 = some ra → h0.cells.length ≤ ra) := by
  simp only [linkChildStep]
  split
  · exact ⟨h1, h2, h3⟩
  · rename_i nodeAddr hg
    by_cases ht : truthyParent (readSpanH hr.1 r)
    · rw [if_pos ht]
      split
      · rename_i p hp
        split
        · rename_i pa hgp
          have hpa : h0.cells.length ≤ pa := mapGet_high hmap hgp
          refine ⟨heapExtends_set h1 hpa, ?_, h3⟩
          apply nodeHigh_set h2
          intro s cs hv c hc
          cases hv
          rcases List.mem_append.mp hc with hcl | hcr
          · exact readChildrenH_high h2 hpa c hcl
          · have hcn : c = nodeAddr := by simpa using hcr
            rw [hcn]
            exact mapGet_high hmap hg
        · exact ⟨h1, h2, h3⟩
      · exact ⟨h1, h2, h3⟩
    · rw [if_neg ht]
      refine ⟨h1, h2, ?_⟩
      intro ra hra
      have han : nodeAddr = ra := Option.some.inj hra
      rw [← han]
      exact mapGet_high hmap hg

theorem linkChildren_fold_inv {h0 : Heap} {m : List (String × ℕ)}
    (hmap : ∀ kv ∈ m, h0.cells.length ≤ kv.2) (refs : List ℕ) :
    ∀ (hr : Heap × Option ℕ),
      heapExtends h0 hr.1 → nodeChildrenHigh h0.cells.length hr.1 →
      (∀ ra, hr.2 = some ra → h0.cells.length ≤ ra) →
      heapExtends h0 (refs.foldl (linkChildStep m) hr).1 ∧
      nodeChildrenHigh h0.cells.length (refs.foldl (linkChildStep m) hr).1 ∧
      (∀ ra, (refs.foldl (linkChildStep m) hr).2 = some ra → h0.cells.length ≤ ra) := by
  induction refs with
  | nil => intro hr h1 h2 h3; exact ⟨h1, h2, h3⟩
  | cons r rs ih =>
    intro hr h1 h2 h3
    rw [List.foldl_cons]
    obtain ⟨s1, s2, s3⟩ := linkChildStep_inv hmap hr r h1 h2 h3
    exact ih _ s1 s2 s3

theorem sortChildrenH_inv (h0 : Heap) :
    ∀ (fuel : ℕ) (h : Heap) (a : ℕ),
      heapExtends h0 h → nodeChildrenHigh h0.cells.length h → h0.cells.length ≤ a →
      heapExtends h0 (sortChildrenH fuel h a).1 ∧
      nodeChildrenHigh h0.cells.length (sortChildrenH fuel h a).1 := by
  intro fuel
  induction fuel with
  | zero => intro h a h1 h2 _; exact ⟨h1, h2⟩
  | succ n ih =>
    intro h a h1 h2 ha
    simp only [sortChildrenH]
    have hsortedHigh : ∀ c ∈ insSortBy (fun c => (readSpanH h c).startTime) (readChildrenH h a),
        h0.cells.length ≤ c := by
      intro c hc
      exact readChildrenH_high h2 ha c ((mem_insSortBy _ _ _).mp hc)
    have h1x : heapExtends h0
        (Heap.set h a (HVal.nodeObj (readSpanH h a)
          (insSortBy (fun c => (readSpanH h c).startTime) (readChildrenH h a)))) :=
      heapExtends_set h1 ha
    have h2x : nodeChildrenHigh h0.cells.length
        (Heap.set h a (HVal.nodeObj (readSpanH h a)
          (insSortBy (fun c => (readSpanH h c).startTime) (readChildrenH h a)))) := by
      apply nodeHigh_set h2
      intro s cs hv c hc
      cases hv
      exact hsortedHigh c hc
    have hfold : ∀ (cs : List ℕ) (hb : Heap × Bool),
        (∀ c ∈ cs, h0.cells.length ≤ c) →
        heapExtends h0 hb.1 → nodeChildrenHigh h0.cells.length hb.1 →
        heapExtends h0 (cs.foldl (fun hb2 c => if hb2.2 then sortChildrenH n hb2.1 c else hb2) hb).1 ∧
        nodeChildrenHigh h0.cells.length
          (cs.foldl (fun hb2 c => if hb2.2 then sortChildrenH n hb2.1 c else hb2) hb).1 := by
      intro cs
      induction cs with
      | nil => intro hb _ hx hn; exact ⟨hx, hn⟩
      | cons c cs ihc =>
        intro hb hcs hx hn
        rw [List.foldl_cons]
        have hstep : heapExtends h0 (if hb.2 then sortChildrenH n hb.1 c else hb).1 ∧
            nodeChildrenHigh h0.cells.length (if hb.2 then sortChildrenH n hb.1 c else hb).1 := by
          by_cases hflag : hb.2
          · rw [if_pos hflag]
            exact ih hb.1 c hx hn (hcs c (List.mem_cons_self _ _))
          · rw [if_neg hflag]
            exact ⟨hx, hn⟩
        exact ihc _ (fun c2 hc2 => hcs c2 (List.mem_cons_of_mem c hc2)) hstep.1 hstep.2
    exact hfold _ _ hsortedHigh h1x h2x

theorem buildSpanTreeH_extends (h : Heap) (arrRef fuel : ℕ) :
    heapExtends h (buildSpanTreeH h arrRef fuel).1 := by
  obtain ⟨c1, c2, c3⟩ := createNodes_fold_inv h (readArrH h arrRef) (h, [])
    (heapExtends_refl h) (nodeHigh_init h)
    (fun kv hkv => absurd hkv (List.not_mem_nil kv))
  obtain ⟨l1, l2, l3⟩ := linkChildren_fold_inv c3 (readArrH h arrRef)
    ((createNodesH h (readArrH h arrRef)).1, none) c1 c2
    (fun ra hra => Option.noConfusion hra)
  have l1' : heapExtends h (linkChildrenH (createNodesH h (readArrH h arrRef)).1
      (readArrH h arrRef) (createNodesH h (readArrH h arrRef)).2).1 := l1
  have l2' : nodeChildrenHigh h.cells.length (linkChildrenH (createNodesH h (readArrH h arrRef)).1
      (readArrH h arrRef) (createNodesH h (readArrH h arrRef)).2).1 := l2
  have l3' : ∀ ra, (linkChildrenH (createNodesH h (readArrH h arrRef)).1
      (readArrH h arrRef) (createNodesH h (readArrH h arrRef)).2).2 = some ra →
      h.cells.length ≤ ra := l3
  simp only [buildSpanTreeH]
  by_cases hempty : (readArrH h arrRef).isEmpty
  · rw [if_pos hempty]
    exact heapExtends_refl h
  · rw [if_neg hempty]
    cases hroot : (linkChildrenH (createNodesH h (readArrH h arrRef)).1 (readArrH h arrRef)
        (createNodesH h (readArrH h arrRef)).2).2 with
    | some ra =>
      exact (sortChildrenH_inv h fuel _ ra l1' l2' (l3' ra hroot)).1
    | none =>
      cases (insSortBy (fun r => (readSpanH (linkChildrenH (createNodesH h (readArrH h arrRef)).1
          (readArrH h arrRef) (createNodesH h (readArrH h arrRef)).2).1 r).startTime)
          (readArrH h arrRef)).head? with
      | some r0 => exact l1'
      | none => exact l1'

theorem renderTraceH_heap_eq (tid : String) (h : Heap) (arrRef fuel : ℕ) :
    (renderTraceH tid h arrRef fuel).1 = (buildSpanTreeH h arrRef fuel).1 := by
  simp only [renderTraceH]
  cases hb : (buildSpanTreeH h arrRef fuel).2 with
  | none => rfl
  | some o =>
    cases o with
    | none => rfl
    | some ra =>
      split <;> try rfl
      split <;> rfl

/-- C10: buildSpanTree and renderTrace never write to a pre-existing heap
cell: after either call every address the caller's heap already had (the
spans array object and every span record among them) holds exactly the
value it held before; the builder mutates only node objects it allocated
itself, and the fallback sorts a fresh copy of the array. -/
theorem C10_input_unchanged (h : Heap) (tid : String) (arrRef fuel a : ℕ)
    (ha : a < h.cells.length) :
    (buildSpanTreeH h arrRef fuel).1.get a = h.get a ∧
    (renderTraceH tid h arrRef fuel).1.get a = h.get a := by
  have hx := buildSpanTreeH_extends h arrRef fuel
  refine ⟨hx.2 a ha, ?_⟩
  rw [renderTraceH_heap_eq]
  exact hx.2 a ha

/-- C10 witness: on a concrete heap holding a two-span array, the span
record at address 1 is untouched by build and render. -/
theorem C10_input_unchanged_witness :
    1 < exHeap.cells.length ∧
    ((buildSpanTreeH exHeap 0 3).1.get 1 = exHeap.get 1 ∧
      (renderTraceH "t" exHeap 0 3).1.get 1 = exHeap.get 1) :=
  ⟨by decide, C10_input_unchanged exHeap "t" 0 3 1 (by decide)⟩
